import Mathlib

/-!
Verification development for the mlocate-tools repository.

Byte strings are modelled as `List Nat` (one `Nat` per byte).  A SHA-256
state (`hashlib.sha256()` object) is modelled by the exact sequence of
bytes it has absorbed via `update`; its `hexdigest` is modelled injectively
by that absorbed byte sequence.  Proving two modelled digests equal hence
proves the real hex digests equal (the real digest is a function of the
absorbed bytes); distinguished digests such as `EMPTY_DIR_CK =
sha256(b'[]')` are modelled by the corresponding absorbed bytes `b'[]'`.
-/

namespace MTools

/-- Byte codes of an ASCII string (every character below 128). -/
def bs (s : String) : List Nat := s.data.map Char.toNat

/-- Helper for `splitB`: first segment and the remaining segments. -/
def splitBA : List Nat → List Nat × List (List Nat)
  | [] => ([], [])
  | c :: rest =>
    let p := splitBA rest
    if c = 47 then ([], p.1 :: p.2) else (c :: p.1, p.2)

/-- Model of Python `bytes.split(b'/')` (`os.sep` on POSIX is `/`, byte 47):
splits a byte string on every separator byte; the empty string splits to
`[[]]` just as `b''.split(b'/') == [b'']`. -/
def splitB (l : List Nat) : List (List Nat) := (splitBA l).1 :: (splitBA l).2

/-- Helper for `joinB`: the tail segments, each preceded by the separator. -/
def joinBT : List (List Nat) → List Nat
  | [] => []
  | s :: ss => 47 :: s ++ joinBT ss

/-- Model of `os.sep.encode().join(segments)`. -/
def joinB : List (List Nat) → List Nat
  | [] => []
  | s :: ss => s ++ joinBT ss

theorem splitB_ne_nil (l : List Nat) : splitB l ≠ [] := by
  simp [splitB]

theorem joinB_splitB (l : List Nat) : joinB (splitB l) = l := by
  induction l with
  | nil => rfl
  | cons c rest ih =>
    simp only [splitB, splitBA] at ih ⊢
    by_cases hc : c = 47
    · subst hc
      simp [joinB, joinBT]
      simpa [joinB] using ih
    · simp only [if_neg hc, joinB] at ih ⊢
      simpa using ih

theorem splitBA_append_sep (a b : List Nat) :
    splitBA (a ++ 47 :: b) = ((splitBA a).1, (splitBA a).2 ++ splitB b) := by
  induction a with
  | nil => simp [splitBA, splitB]
  | cons c rest ih =>
    simp only [List.cons_append, splitBA, ih]
    by_cases hc : c = 47 <;> simp [hc, ih]

theorem splitB_append_sep (a b : List Nat) :
    splitB (a ++ 47 :: b) = splitB a ++ splitB b := by
  simp [splitB, splitBA_append_sep]

theorem splitB_sep_free (n : List Nat) (h : 47 ∉ n) : splitB n = [n] := by
  induction n with
  | nil => rfl
  | cons c rest ih =>
    simp only [List.mem_cons, not_or] at h
    have h1 : (47 : Nat) ≠ c := h.1
    have := ih h.2
    simp only [splitB, splitBA] at this ⊢
    have hc : ¬ c = 47 := fun hcc => h1 hcc.symm
    simp only [if_neg hc]
    simp only [List.cons.injEq] at this
    simp [this.1, this.2]

/-- The common-stem loop of `DirHashStack.select` (and `Tree.load`): length
of the longest common prefix of two segment lists. -/
def commonLvl : List (List Nat) → List (List Nat) → Nat
  | [], _ => 0
  | _ :: _, [] => 0
  | a :: as_, b :: bs_ => if a = b then commonLvl as_ bs_ + 1 else 0

theorem commonLvl_le_left (a b : List (List Nat)) : commonLvl a b ≤ a.length := by
  induction a generalizing b with
  | nil => simp [commonLvl]
  | cons x xs ih =>
    cases b with
    | nil => simp [commonLvl]
    | cons y ys =>
      simp only [commonLvl, List.length_cons]
      split
      · have := ih ys; omega
      · omega

theorem commonLvl_le_right (a b : List (List Nat)) : commonLvl a b ≤ b.length := by
  induction a generalizing b with
  | nil => simp [commonLvl]
  | cons x xs ih =>
    cases b with
    | nil => simp [commonLvl]
    | cons y ys =>
      simp only [commonLvl, List.length_cons]
      split
      · have := ih ys; omega
      · omega

theorem commonLvl_take (a b : List (List Nat)) :
    a.take (commonLvl a b) = b.take (commonLvl a b) := by
  induction a generalizing b with
  | nil => simp [commonLvl]
  | cons x xs ih =>
    cases b with
    | nil => simp [commonLvl]
    | cons y ys =>
      simp only [commonLvl]
      split
      · next h => simp [List.take_succ_cons, h, ih ys]
      · simp

theorem commonLvl_self (a : List (List Nat)) : commonLvl a a = a.length := by
  induction a with
  | nil => rfl
  | cons x xs ih => simp [commonLvl, ih]

theorem commonLvl_append (a u v : List (List Nat)) :
    commonLvl (a ++ u) (a ++ v) = a.length + commonLvl u v := by
  induction a with
  | nil => simp
  | cons x xs ih =>
    simp [List.cons_append, commonLvl, ih]
    omega

theorem commonLvl_append_right (a v : List (List Nat)) :
    commonLvl a (a ++ v) = a.length := by
  have h := commonLvl_append a [] v
  simpa [commonLvl] using h

/-- Boolean prefix test on byte-segment lists (our own, self-contained). -/
def leads : List (List Nat) → List (List Nat) → Bool
  | [], _ => true
  | _ :: _, [] => false
  | a :: as_, b :: bs_ => a = b && leads as_ bs_

theorem leads_of_commonLvl_append_ge (l rest m : List (List Nat))
    (h : l.length ≤ commonLvl (l ++ rest) m) : leads l m = true := by
  induction l generalizing m with
  | nil => rfl
  | cons x xs ih =>
    cases m with
    | nil => simp [commonLvl] at h
    | cons y ys =>
      simp only [List.cons_append, commonLvl, List.length_cons, List.append_eq] at h
      by_cases hxy : x = y
      · subst hxy
        rw [if_pos rfl] at h
        simp only [leads, Bool.and_eq_true, decide_eq_true_eq]
        exact ⟨trivial, ih ys (by omega)⟩
      · rw [if_neg hxy] at h
        exact absurd h (by omega)

theorem commonLvl_lt_of_not_leads (l rest m : List (List Nat))
    (h : ¬ leads l m = true) : commonLvl (l ++ rest) m < l.length := by
  by_contra hge
  push_neg at hge
  exact h (leads_of_commonLvl_append_ge l rest m hge)

end MTools

namespace MTools

/-! ## The hash stack of `dup_dirs.DirHashStack`

A level of the stack is a pair `(segment, absorbed)`: the directory-name
segment and the byte sequence absorbed so far by that level's SHA-256
state.  The two observer callbacks (`on_push`, `on_pop`) are modelled as an
emitted event list; a pop event carries the joined full path (as built by
`App.pop_handler` from `dir_names() + [name]`), the running digest of the
stack top after the pop (`get_checksum(-1)`, `none` when the stack became
empty, where Python would raise `IndexError`), and the popped level's
finalized digest. -/

/-- One stack level: directory segment and bytes absorbed by its digest. -/
abbrev Level := List Nat × List Nat

/-- The stack of `DirHashStack`. -/
abbrev HState := List Level

/-- Observer events of the hash stack. -/
inductive Ev where
  | push : List Nat → Ev
  | pop : List Nat → Option (List Nat) → List Nat → Ev
deriving DecidableEq, Repr

/-- `DirHashStack.dir_names()`. -/
def names (st : HState) : List (List Nat) := st.map Prod.fst

/-- `DirHashStack.push`: notify the observer, append a fresh digest level. -/
def pushOp (st : HState) (seg : List Nat) : HState × List Ev :=
  (st ++ [(seg, [])], [Ev.push seg])

/-- `DirHashStack.pop`: remove the last level, finalize its digest and
notify the observer with the data `App.pop_handler` uses. -/
def popOp (st : HState) : HState × List Ev :=
  match st.getLast? with
  | none => (st, [])
  | some (seg, h) =>
    let rest := st.dropLast
    (rest, [Ev.pop (joinB (names rest ++ [seg])) ((rest.getLast?).map Prod.snd) h])

/-- `DirHashStack.popx`. -/
def popxOp : HState → Nat → HState × List Ev
  | st, 0 => (st, [])
  | st, n+1 =>
    let p := popOp st
    let q := popxOp p.1 n
    (q.1, p.2 ++ q.2)

/-- `DirHashStack.pushx`. -/
def pushxOp : HState → List (List Nat) → HState × List Ev
  | st, [] => (st, [])
  | st, s :: ss =>
    let p := pushOp st s
    let q := pushxOp p.1 ss
    (q.1, p.2 ++ q.2)

/-- `DirHashStack.select(dirpath)`: split the path, keep the common stem,
pop the rest, push the new segments. -/
def selectOp (st : HState) (p : List Nat) : HState × List Ev :=
  let l := splitB p
  let k := commonLvl (names st) l
  let a := popxOp st (st.length - k)
  let b := pushxOp a.1 (l.drop k)
  (b.1, a.2 ++ b.2)

/-- A SHA-256 `update(chunk)` on one level. -/
def absorb (ch : List Nat) (lv : Level) : Level := (lv.1, lv.2 ++ ch)

/-- `DirHashStack.sum_contents`: update every level's digest with the chunk. -/
def sumContents (st : HState) (ch : List Nat) : HState := st.map (absorb ch)

theorem names_length (st : HState) : (names st).length = st.length := by
  simp [names]

theorem names_append (a b : HState) : names (a ++ b) = names a ++ names b := by
  simp [names]

theorem names_take (st : HState) (n : Nat) : names (st.take n) = (names st).take n := by
  simp [names, List.map_take]

theorem names_sumContents (st : HState) (ch : List Nat) :
    names (sumContents st ch) = names st := by
  simp [names, sumContents, absorb]

theorem popOp_state (st : HState) : (popOp st).1 = st.dropLast := by
  unfold popOp
  cases h : st.getLast? with
  | none =>
    have : st = [] := List.getLast?_eq_none_iff.mp h
    simp [this]
  | some lv => cases lv; simp

theorem popxOp_state (st : HState) (n : Nat) :
    (popxOp st n).1 = st.take (st.length - n) := by
  induction n generalizing st with
  | zero => simp [popxOp]
  | succ n ih =>
    simp only [popxOp, ih, popOp_state]
    rw [List.dropLast_eq_take]
    rw [List.take_take, List.length_take]
    congr 1
    omega

theorem pushxOp_state (st : HState) (ss : List (List Nat)) :
    (pushxOp st ss).1 = st ++ ss.map (fun s => (s, [])) := by
  induction ss generalizing st with
  | nil => simp [pushxOp]
  | cons s ss ih => simp [pushxOp, pushOp, ih]

theorem selectOp_state (st : HState) (p : List Nat) :
    (selectOp st p).1
      = st.take (commonLvl (names st) (splitB p))
        ++ ((splitB p).drop (commonLvl (names st) (splitB p))).map (fun s => (s, [])) := by
  unfold selectOp
  simp only [popxOp_state, pushxOp_state]
  have hk : commonLvl (names st) (splitB p) ≤ st.length := by
    have := commonLvl_le_left (names st) (splitB p)
    simpa [names_length] using this
  congr 1
  congr 1
  omega

theorem names_selectOp (st : HState) (p : List Nat) :
    names (selectOp st p).1 = splitB p := by
  rw [selectOp_state, names_append, names_take]
  rw [commonLvl_take (names st) (splitB p)]
  simp only [names, List.map_map]
  have hc : (Prod.fst ∘ fun s : List Nat => (s, ([] : List Nat))) = id := rfl
  rw [hc, List.map_id, List.take_append_drop]

theorem selectOp_length (st : HState) (p : List Nat) :
    (selectOp st p).1.length = (splitB p).length := by
  have := names_selectOp st p
  have h := congrArg List.length this
  simpa [names_length] using h

theorem selectOp_noop (st : HState) (p : List Nat) (hn : names st = splitB p) :
    selectOp st p = (st, []) := by
  have hl : st.length = (splitB p).length := by
    rw [← names_length st, hn]
  simp only [selectOp, hn, commonLvl_self]
  rw [← hl, Nat.sub_self]
  simp [popxOp, pushxOp, hl, List.drop_length]

/-- Claim C10: selecting the same path twice in a row is a no-op; the second
call pops nothing, pushes nothing, fires no observer, and leaves every
level (segments and digest states) unchanged. -/
theorem select_idempotent (st : HState) (p : List Nat) :
    selectOp (selectOp st p).1 p = ((selectOp st p).1, []) :=
  selectOp_noop (selectOp st p).1 p (names_selectOp st p)

end MTools

namespace MTools

/-! ## Chunk serialization: `repr(contents).encode('utf_8')`

`sum_contents` hashes the Python `repr` of the contents list, a list of
`(bool, bytes)` pairs.  We reproduce CPython's `repr` of such a value:
`[]` for the empty list, otherwise `[(True, b'name'), ...]`, where a bytes
literal prefers single quotes (double quotes when the bytes contain `'`
but no `"`) and escapes backslash, the quote, tab, newline, carriage
return, and every byte outside 32..126 as `\xHH` with lowercase hex. -/

/-- Directory contents: ordered `(is_subdir, name_bytes)` pairs. -/
abbrev Contents := List (Bool × List Nat)

/-- Lowercase hex digit. -/
def hexDigit (n : Nat) : Nat := if n < 10 then 48 + n else 87 + n

/-- CPython escape of one byte inside a bytes literal with quote `q`. -/
def pyByteEsc (q : Nat) (c : Nat) : List Nat :=
  if c = 92 then [92, 92]
  else if c = q then [92, q]
  else if c = 9 then [92, 116]
  else if c = 10 then [92, 110]
  else if c = 13 then [92, 114]
  else if c < 32 ∨ 127 ≤ c then [92, 120, hexDigit (c / 16), hexDigit (c % 16)]
  else [c]

/-- CPython `repr` of a bytes object (as byte codes of the ASCII result). -/
def bytesRepr (s : List Nat) : List Nat :=
  let q : Nat := if 39 ∈ s ∧ ¬ 34 ∈ s then 34 else 39
  98 :: q :: (s.map (pyByteEsc q)).flatten ++ [q]

/-- CPython `repr` of a bool. -/
def boolRepr : Bool → List Nat
  | true => [84, 114, 117, 101]
  | false => [70, 97, 108, 115, 101]

/-- CPython `repr` of one `(flag, name)` entry tuple. -/
def entryRepr (e : Bool × List Nat) : List Nat :=
  40 :: boolRepr e.1 ++ [44, 32] ++ bytesRepr e.2 ++ [41]

/-- Comma-space separated concatenation, as in a Python list `repr`. -/
def commaJoin : List (List Nat) → List Nat
  | [] => []
  | [x] => x
  | x :: xs => x ++ [44, 32] ++ commaJoin xs

/-- The chunk hashed by `sum_contents`: `repr(contents).encode('utf_8')`. -/
def chunkOf (c : Contents) : List Nat :=
  91 :: commaJoin (c.map entryRepr) ++ [93]

/-- `DirHashStack.EMPTY_DIR_CK`, i.e. `sha256(b'[]')`, in the
absorbed-bytes model of digests: the chunk of an empty contents list. -/
def emptyDirCk : List Nat := chunkOf []

/-! ## The directory stream consumer `App.process_dir` -/

/-- One directory block as consumed by the dups application: the raw path
(`DirEntry.bname`) and its contents list. -/
structure Dir where
  path : List Nat
  contents : Contents
deriving DecidableEq, Repr

/-- `App.process_dir`: `select` the path, then `sum_contents`. -/
def processDir (st : HState) (d : Dir) : HState × List Ev :=
  let s := selectOp st d.path
  (sumContents s.1 (chunkOf d.contents), s.2)

/-- Run the driver loop of `App.run` over a stream of directory blocks,
collecting the observer events in order. -/
def runStream (st : HState) : List Dir → HState × List Ev
  | [] => (st, [])
  | d :: ds =>
    let p := processDir st d
    let q := runStream p.1 ds
    (q.1, p.2 ++ q.2)

theorem runStream_append (st : HState) (a b : List Dir) :
    runStream st (a ++ b)
      = ((runStream (runStream st a).1 b).1,
         (runStream st a).2 ++ (runStream (runStream st a).1 b).2) := by
  induction a generalizing st with
  | nil => simp [runStream]
  | cons d ds ih =>
    simp only [List.cons_append, runStream, List.append_eq, ih, List.append_assoc]

theorem sumContents_append (a b : HState) (ch : List Nat) :
    sumContents (a ++ b) ch = sumContents a ch ++ sumContents b ch := by
  simp [sumContents]

theorem sumContents_map_absorb (st : HState) (ch1 ch2 : List Nat) :
    sumContents (st.map (absorb ch1)) ch2 = st.map (absorb (ch1 ++ ch2)) := by
  simp only [sumContents, List.map_map]
  apply List.map_congr_left
  intro lv _
  simp [absorb, Function.comp]

theorem processDir_state (st : HState) (d : Dir) :
    (processDir st d).1
      = (st.take (commonLvl (names st) (splitB d.path))).map (absorb (chunkOf d.contents))
        ++ ((splitB d.path).drop (commonLvl (names st) (splitB d.path))).map
            (fun s => (s, chunkOf d.contents)) := by
  simp only [processDir, selectOp_state, sumContents_append]
  congr 1
  simp only [sumContents, List.map_map]
  apply List.map_congr_left
  intro s _
  simp [absorb, Function.comp]

end MTools

namespace MTools

/-! ## Directory subtrees and their depth-first streams

A subtree visited by the stream is a rose tree: each node carries the
contents list of its directory, and an ordered list of named child
subtrees.  `dfsT p t` is the directory stream the decoder delivers for the
subtree `t` rooted at path `p` (parent first, then each child's stream in
order) — the depth-first order the spec assumes. -/

mutual
inductive DirTree where
  | node : Contents → KidList → DirTree
deriving DecidableEq, Repr
inductive KidList where
  | nil : KidList
  | cons : List Nat → DirTree → KidList → KidList
deriving DecidableEq, Repr
end

mutual
/-- Depth-first directory stream of a subtree rooted at path `p`. -/
def dfsT (p : List Nat) : DirTree → List Dir
  | .node c kids => ⟨p, c⟩ :: dfsK p kids
/-- Depth-first streams of a list of children of the directory at `p`. -/
def dfsK (p : List Nat) : KidList → List Dir
  | .nil => []
  | .cons n t rest => dfsT (p ++ 47 :: n) t ++ dfsK p rest
end

mutual
/-- Concatenated chunks of every directory of the subtree, in depth-first
order: exactly the bytes absorbed by the root's digest level. -/
def chunksT : DirTree → List Nat
  | .node c kids => chunkOf c ++ chunksK kids
/-- Concatenated chunks contributed by a list of children. -/
def chunksK : KidList → List Nat
  | .nil => []
  | .cons _ t rest => chunksT t ++ chunksK rest
end

/-- Names of the children of a node. -/
def kidNames : KidList → List (List Nat)
  | .nil => []
  | .cons n _ rest => n :: kidNames rest

mutual
/-- Well-formed subtree: at every node the child names are separator-free
and pairwise distinct (true of any real directory tree). -/
def wfT : DirTree → Bool
  | .node _ kids => wfK kids
/-- Well-formedness of a child list. -/
def wfK : KidList → Bool
  | .nil => true
  | .cons n t rest =>
    decide (47 ∉ n) && decide (n ∉ kidNames rest) && wfT t && wfK rest
end

mutual
/-- Identical recursive entry-name structure: same tree shape and the same
contents list (the `(is_subdir, name)` entries, in order) at every node.
The segment names of the children — the paths — are not constrained. -/
def eqStructT : DirTree → DirTree → Bool
  | .node c1 k1, .node c2 k2 => decide (c1 = c2) && eqStructK k1 k2
/-- Structural identity of child lists. -/
def eqStructK : KidList → KidList → Bool
  | .nil, .nil => true
  | .cons _ t1 r1, .cons _ t2 r2 => eqStructT t1 t2 && eqStructK r1 r2
  | _, _ => false
end

mutual
theorem chunksT_eq_of_eqStruct (A B : DirTree) (h : eqStructT A B = true) :
    chunksT A = chunksT B := by
  cases A with
  | node c1 k1 =>
    cases B with
    | node c2 k2 =>
      simp only [eqStructT, Bool.and_eq_true, decide_eq_true_eq] at h
      simp only [chunksT, h.1, chunksK_eq_of_eqStruct k1 k2 h.2]
theorem chunksK_eq_of_eqStruct (ka kb : KidList) (h : eqStructK ka kb = true) :
    chunksK ka = chunksK kb := by
  cases ka with
  | nil =>
    cases kb with
    | nil => rfl
    | cons n t r => simp [eqStructK] at h
  | cons n1 t1 r1 =>
    cases kb with
    | nil => simp [eqStructK] at h
    | cons n2 t2 r2 =>
      simp only [eqStructK, Bool.and_eq_true] at h
      simp only [chunksK, chunksT_eq_of_eqStruct t1 t2 h.1,
        chunksK_eq_of_eqStruct r1 r2 h.2]
end

theorem names_processDir (st : HState) (d : Dir) :
    names (processDir st d).1 = splitB d.path := by
  simp [processDir, names_sumContents, names_selectOp]

theorem map_absorb_absorb (st : HState) (a b : List Nat) :
    (st.map (absorb a)).map (absorb b) = st.map (absorb (a ++ b)) := by
  rw [List.map_map]
  apply List.map_congr_left
  intro lv _
  simp [absorb, Function.comp]

theorem map_mk_absorb (l : List (List Nat)) (a b : List Nat) :
    (l.map (fun s => (s, a))).map (absorb b) = l.map (fun s => (s, a ++ b)) := by
  rw [List.map_map]
  apply List.map_congr_left
  intro s _
  simp [absorb, Function.comp]

theorem map_absorb_nil (st : HState) : st.map (absorb []) = st := by
  have : absorb [] = id := by
    funext lv
    simp [absorb]
  rw [this, List.map_id]

theorem runStream_cons (st : HState) (d : Dir) (ds : List Dir) :
    (runStream st (d :: ds)).1 = (runStream (processDir st d).1 ds).1 := by
  simp [runStream]

end MTools

namespace MTools

theorem take_len_append {α : Type} (a b : List α) : (a ++ b).take a.length = a := by
  induction a with
  | nil => simp
  | cons x xs ih => simp [ih]

theorem take_of_length_eq {α : Type} (M X : List α) (L : Nat) (h : M.length = L) :
    (M ++ X).take L = M := by
  subst h
  exact take_len_append M X

theorem drop_len_append {α : Type} (a b : List α) : (a ++ b).drop a.length = b := by
  induction a with
  | nil => simp
  | cons x xs ih => simp [ih]

theorem getElem?_append_len {α : Type} (a b : List α) : (a ++ b)[a.length]? = b[0]? := by
  induction a with
  | nil => simp
  | cons x xs ih => simpa using ih

theorem names_map_absorb (st : HState) (ch : List Nat) :
    names (st.map (absorb ch)) = names st := by
  simp only [names, List.map_map]
  apply List.map_congr_left
  intro lv _
  rfl

mutual

/-- Running the depth-first stream of a well-formed subtree `t` rooted at
`p`, from any stack that does not already hold the full chain of `p`:
the levels kept by the initial `select` absorb exactly the subtree's
chunk sequence, the chain of `p` is freshly built with every level's
absorbed bytes equal to `chunksT t`, and some deeper spine remains. -/
theorem runDfs (t : DirTree) (p : List Nat) (st : HState)
    (hw : wfT t = true) :
    ∃ spine : HState,
      (runStream st (dfsT p t)).1
        = (st.take (commonLvl (names st) (splitB p))).map (absorb (chunksT t))
          ++ ((splitB p).drop (commonLvl (names st) (splitB p))).map
              (fun s => (s, chunksT t))
          ++ spine := by
  cases t with
  | node c kids =>
    have hstep : (runStream st (dfsT p (.node c kids))).1
        = (runStream (processDir st ⟨p, c⟩).1 (dfsK p kids)).1 := by
      simp only [dfsT]
      exact runStream_cons st ⟨p, c⟩ (dfsK p kids)
    have hS0eq : (processDir st ⟨p, c⟩).1
        = (st.take (commonLvl (names st) (splitB p))).map (absorb (chunkOf c))
          ++ ((splitB p).drop (commonLvl (names st) (splitB p))).map
              (fun s => (s, chunkOf c)) := processDir_state st ⟨p, c⟩
    have hnames : names (processDir st ⟨p, c⟩).1 = splitB p := names_processDir st ⟨p, c⟩
    have hlen : (processDir st ⟨p, c⟩).1.length = (splitB p).length := by
      have h := congrArg List.length hnames
      simpa [names_length] using h
    have hwk : wfK kids = true := by simpa [wfT] using hw
    have h1 : (names (processDir st ⟨p, c⟩).1).take (splitB p).length = splitB p := by
      rw [hnames, List.take_length]
    have h2 : ∀ n ∈ kidNames kids,
        (names (processDir st ⟨p, c⟩).1)[(splitB p).length]? ≠ some n := by
      intro n _
      rw [hnames]
      simp
    obtain ⟨spine, hsp⟩ := runKids kids p (processDir st ⟨p, c⟩).1 hwk h1 h2
    refine ⟨spine, ?_⟩
    rw [hstep, hsp]
    have hS0take : (processDir st ⟨p, c⟩).1.take (splitB p).length
        = (processDir st ⟨p, c⟩).1 := by
      rw [← hlen, List.take_length]
    rw [hS0take, hS0eq, List.map_append, map_absorb_absorb, map_mk_absorb]
    simp [chunksT, List.append_assoc]

/-- Running the concatenated depth-first streams of a well-formed child
list from a stack whose first `|splitB p|` names are exactly the chain of
`p` and whose next name differs from every child name: the first levels
absorb exactly the children's chunk sequence. -/
theorem runKids (ks : KidList) (p : List Nat) (S : HState)
    (hw : wfK ks = true)
    (h1 : (names S).take (splitB p).length = splitB p)
    (h2 : ∀ n ∈ kidNames ks, (names S)[(splitB p).length]? ≠ some n) :
    ∃ spine : HState,
      (runStream S (dfsK p ks)).1
        = (S.take (splitB p).length).map (absorb (chunksK ks)) ++ spine := by
  cases ks with
  | nil =>
    refine ⟨S.drop (splitB p).length, ?_⟩
    simp only [dfsK, runStream, chunksK, map_absorb_nil, List.take_append_drop]
  | cons n t rest =>
    have hw' := hw
    simp only [wfK, Bool.and_eq_true, decide_eq_true_eq] at hw'
    obtain ⟨⟨⟨hsep, hdist⟩, hwt⟩, hwrest⟩ := hw'
    have hSlen : (splitB p).length ≤ S.length := by
      have h := congrArg List.length h1
      simp only [List.length_take, names_length] at h
      omega
    have hsplit : splitB (p ++ 47 :: n) = splitB p ++ [n] := by
      rw [splitB_append_sep, splitB_sep_free n hsep]
    have hnames : names S = splitB p ++ (names S).drop (splitB p).length := by
      conv_lhs => rw [← List.take_append_drop (splitB p).length (names S)]
      rw [h1]
    have hzero : commonLvl ((names S).drop (splitB p).length) [n] = 0 := by
      cases hdrop : (names S).drop (splitB p).length with
      | nil => simp [commonLvl]
      | cons h0 tl =>
        have hh := h2 n (by simp [kidNames])
        rw [hnames, hdrop, getElem?_append_len] at hh
        simp only [List.getElem?_cons_zero, ne_eq, Option.some.injEq] at hh
        have hne : ¬ h0 = n := hh
        simp [commonLvl, hne]
    have hkval : commonLvl (names S) (splitB (p ++ 47 :: n)) = (splitB p).length := by
      rw [hsplit]
      conv_lhs => rw [hnames]
      rw [commonLvl_append, hzero]
      omega
    obtain ⟨spine1, hsp1⟩ := runDfs t (p ++ 47 :: n) S hwt
    have hdropn : (splitB (p ++ 47 :: n)).drop (splitB p).length = [n] := by
      rw [hsplit, drop_len_append]
    have hT1 : (runStream S (dfsT (p ++ 47 :: n) t)).1
        = (S.take (splitB p).length).map (absorb (chunksT t))
          ++ ((n, chunksT t) :: spine1) := by
      rw [hsp1, hkval, hdropn]
      simp
    have hMlen : ((S.take (splitB p).length).map (absorb (chunksT t))).length
        = (splitB p).length := by
      simp [List.length_take]
      omega
    have hnamesT1 : names (runStream S (dfsT (p ++ 47 :: n) t)).1
        = splitB p ++ n :: names spine1 := by
      rw [hT1, names_append, names_map_absorb, names_take, h1]
      rfl
    have h1' : (names (runStream S (dfsT (p ++ 47 :: n) t)).1).take (splitB p).length
        = splitB p := by
      rw [hnamesT1, take_len_append]
    have h2' : ∀ m ∈ kidNames rest,
        (names (runStream S (dfsT (p ++ 47 :: n) t)).1)[(splitB p).length]? ≠ some m := by
      intro m hm
      rw [hnamesT1, getElem?_append_len]
      simp only [List.getElem?_cons_zero, ne_eq, Option.some.injEq]
      intro heq
      exact hdist (heq ▸ hm)
    obtain ⟨spine2, hsp2⟩ :=
      runKids rest p (runStream S (dfsT (p ++ 47 :: n) t)).1 hwrest h1' h2'
    refine ⟨spine2, ?_⟩
    have hsplitrun : (runStream S (dfsK p (.cons n t rest))).1
        = (runStream (runStream S (dfsT (p ++ 47 :: n) t)).1 (dfsK p rest)).1 := by
      simp only [dfsK]
      rw [runStream_append]
    rw [hsplitrun, hsp2]
    have htake1 : ((runStream S (dfsT (p ++ 47 :: n) t)).1).take (splitB p).length
        = (S.take (splitB p).length).map (absorb (chunksT t)) := by
      rw [hT1]
      exact take_of_length_eq _ _ _ hMlen
    rw [htake1, map_absorb_absorb]
    simp [chunksK]

end

end MTools

namespace MTools

theorem getElem?_append_lt {α : Type} (a b : List α) (i : Nat) (h : i < a.length) :
    (a ++ b)[i]? = a[i]? := by
  induction a generalizing i with
  | nil => simp at h
  | cons x xs ih =>
    cases i with
    | zero => simp
    | succ j =>
      simp only [List.length_cons] at h
      simpa using ih j (by omega)

theorem getElem?_append_ge {α : Type} (a b : List α) (i : Nat) (h : a.length ≤ i) :
    (a ++ b)[i]? = b[i - a.length]? := by
  induction a generalizing i with
  | nil => simp
  | cons x xs ih =>
    cases i with
    | zero => simp at h
    | succ j =>
      simp only [List.length_cons] at h ⊢
      have := ih j (by omega)
      simpa [Nat.succ_sub_succ] using this

theorem getElem?_take_lt {α : Type} (l : List α) (n i : Nat) (h : i < n) :
    (l.take n)[i]? = l[i]? := by
  induction l generalizing n i with
  | nil => simp
  | cons x xs ih =>
    cases n with
    | zero => omega
    | succ m =>
      cases i with
      | zero => simp
      | succ j => simpa using ih m j (by omega)

theorem take_succ_getElem {α : Type} (l : List α) (i : Nat) (v : α)
    (h : l[i]? = some v) : l.take (i + 1) = l.take i ++ [v] := by
  induction l generalizing i with
  | nil => simp at h
  | cons x xs ih =>
    cases i with
    | zero =>
      simp only [List.getElem?_cons_zero, Option.some.injEq] at h
      simp [h]
    | succ j =>
      simp only [List.getElem?_cons_succ] at h
      simp [List.take_succ_cons, ih j h]

/-- When the stack has at least `nn - i` levels above level `i`, popping
`nn` levels emits, among others, the pop event of level `i`: its full path
is the join of the first `i + 1` segment names and its digest is the bytes
absorbed at that level. -/
theorem popxOp_ev_mem (st : HState) (nn i : Nat) (lv : Level)
    (hget : st[i]? = some lv) (hi1 : st.length - nn ≤ i) :
    ∃ par, Ev.pop (joinB ((names st).take (i + 1))) par lv.2 ∈ (popxOp st nn).2 := by
  induction nn generalizing st with
  | zero =>
    have : i < st.length := (List.getElem?_eq_some.mp hget).1
    omega
  | succ n ih =>
    have hilt : i < st.length := (List.getElem?_eq_some.mp hget).1
    have hne : st ≠ [] := by
      intro h
      subst h
      simp at hget
    obtain ⟨seg, hd⟩ : ∃ lv0, st.getLast? = some lv0 := by
      cases h : st.getLast? with
      | none => exact absurd (List.getLast?_eq_none_iff.mp h) hne
      | some lv0 => exact ⟨lv0, rfl⟩
    by_cases hlast : i = st.length - 1
    · -- level `i` is the one popped right now
      refine ⟨(st.dropLast.getLast?).map Prod.snd, ?_⟩
      have hlv : st.getLast? = some lv := by
        rw [List.getLast?_eq_getElem?]
        rw [← hlast]
        exact hget
      have hpath : names st.dropLast ++ [lv.1] = (names st).take (i + 1) := by
        have h1 : names st.dropLast = (names st).take i := by
          rw [List.dropLast_eq_take, names_take]
          congr 1
          simp [names_length, hlast]
        have h2 : (names st)[i]? = some lv.1 := by
          simp [names, List.getElem?_map, hget]
        rw [h1, take_succ_getElem (names st) i lv.1 h2]
      simp only [popxOp, popOp, hlv]
      rw [hpath]
      simp
    · -- level `i` survives this pop; recurse on the shorter stack
      have hget' : st.dropLast[i]? = some lv := by
        rw [List.dropLast_eq_take, getElem?_take_lt st (st.length - 1) i (by omega)]
        exact hget
      have hi1' : st.dropLast.length - n ≤ i := by
        simp only [List.length_dropLast]
        omega
      obtain ⟨par, hmem⟩ := ih st.dropLast hget' hi1'
      refine ⟨par, ?_⟩
      have hnames' : (names st.dropLast).take (i + 1) = (names st).take (i + 1) := by
        rw [List.dropLast_eq_take, names_take, List.take_take]
        congr 1
        simp [names_length]
        omega
      rw [hnames'] at hmem
      cases hlv0 : st.getLast? with
      | none => exact absurd (List.getLast?_eq_none_iff.mp hlv0) hne
      | some lv0 =>
        cases lv0 with
        | mk seg0 h0 =>
          simp only [popxOp, popOp, hlv0]
          simp only [List.mem_append, List.mem_cons]
          right
          exact hmem

/-- The pop cascade of a `select`: every level at or above the common stem
is popped, emitting its finalized digest under its full path. -/
theorem selectOp_ev_mem (st : HState) (p : List Nat) (i : Nat) (lv : Level)
    (hget : st[i]? = some lv) (hi : commonLvl (names st) (splitB p) ≤ i) :
    ∃ par, Ev.pop (joinB ((names st).take (i + 1))) par lv.2 ∈ (selectOp st p).2 := by
  have hk : commonLvl (names st) (splitB p) ≤ st.length := by
    have := commonLvl_le_left (names st) (splitB p)
    simpa [names_length] using this
  obtain ⟨par, hmem⟩ := popxOp_ev_mem st (st.length - commonLvl (names st) (splitB p)) i lv
    hget (by omega)
  refine ⟨par, ?_⟩
  unfold selectOp
  simp only [List.mem_append]
  left
  exact hmem

theorem processDir_ev (st : HState) (d : Dir) :
    (processDir st d).2 = (selectOp st d.path).2 := rfl

theorem runStream_cons_ev (st : HState) (d : Dir) (ds : List Dir) :
    (runStream st (d :: ds)).2
      = (processDir st d).2 ++ (runStream (processDir st d).1 ds).2 := by
  simp [runStream]

theorem runStream_state_append (st : HState) (a b : List Dir) :
    (runStream st (a ++ b)).1 = (runStream (runStream st a).1 b).1 := by
  rw [runStream_append]

theorem runStream_ev_append (st : HState) (a b : List Dir) :
    (runStream st (a ++ b)).2
      = (runStream st a).2 ++ (runStream (runStream st a).1 b).2 := by
  rw [runStream_append]

end MTools

namespace MTools

theorem names_map_mk (x : List (List Nat)) (c : List Nat) :
    names (x.map (fun s => (s, c))) = x := by
  simp only [names, List.map_map]
  have h : (Prod.fst ∘ fun s : List Nat => (s, c)) = id := rfl
  rw [h, List.map_id]

theorem getElem?_drop_add {α : Type} (l : List α) (n m : Nat) :
    (l.drop n)[m]? = l[n + m]? := by
  induction l generalizing n with
  | nil => simp
  | cons x xs ih =>
    cases n with
    | zero => simp
    | succ k => simp [Nat.succ_add, ih k]

theorem splitB_length_pos (p : List Nat) : 1 ≤ (splitB p).length := by
  simp [splitB]

/-- After running the depth-first stream of a well-formed subtree from a
stack that did not hold `p`'s full chain, the stack names extend the chain
of `p` and the level of `p` itself (depth `|splitB p| - 1`) has absorbed
exactly the subtree's chunk sequence. -/
theorem runDfs_pop_ready (t : DirTree) (p : List Nat) (st : HState)
    (hw : wfT t = true)
    (hk : commonLvl (names st) (splitB p) < (splitB p).length) :
    (∃ sp, names (runStream st (dfsT p t)).1 = splitB p ++ sp) ∧
    (∃ lv : Level, (runStream st (dfsT p t)).1[(splitB p).length - 1]? = some lv
        ∧ lv.2 = chunksT t) := by
  obtain ⟨spine, hsp⟩ := runDfs t p st hw
  have hkle : commonLvl (names st) (splitB p) ≤ st.length := by
    have h := commonLvl_le_left (names st) (splitB p)
    simpa [names_length] using h
  have hTKlen : ((st.take (commonLvl (names st) (splitB p))).map
      (absorb (chunksT t))).length = commonLvl (names st) (splitB p) := by
    simp [List.length_take]
    omega
  constructor
  · refine ⟨names spine, ?_⟩
    rw [hsp, names_append, names_append, names_map_absorb, names_take,
      commonLvl_take (names st) (splitB p), names_map_mk, List.take_append_drop]
  · have hlt : (splitB p).length - 1 <
        ((st.take (commonLvl (names st) (splitB p))).map (absorb (chunksT t))
          ++ ((splitB p).drop (commonLvl (names st) (splitB p))).map
              (fun s => (s, chunksT t))).length := by
      simp only [List.length_append, hTKlen, List.length_map, List.length_drop]
      have := splitB_length_pos p
      omega
    have hge : ((st.take (commonLvl (names st) (splitB p))).map
        (absorb (chunksT t))).length ≤ (splitB p).length - 1 := by
      rw [hTKlen]
      omega
    have hbound : (splitB p).length - 1 < (splitB p).length := by
      have := splitB_length_pos p
      omega
    obtain ⟨s, hs⟩ : ∃ s, (splitB p)[(splitB p).length - 1]? = some s := by
      rw [List.getElem?_eq_getElem hbound]
      exact ⟨_, rfl⟩
    have harith : commonLvl (names st) (splitB p)
        + ((splitB p).length - 1 - commonLvl (names st) (splitB p))
        = (splitB p).length - 1 := by
      omega
    refine ⟨(s, chunksT t), ?_, rfl⟩
    rw [hsp, getElem?_append_lt _ _ _ hlt, getElem?_append_ge _ _ _ hge, hTKlen,
      List.getElem?_map, getElem?_drop_add, harith, hs]
    rfl

theorem ev_mem_left (st : HState) (a b : List Dir) (e : Ev)
    (h : e ∈ (runStream st a).2) : e ∈ (runStream st (a ++ b)).2 := by
  rw [runStream_ev_append]
  exact List.mem_append_left _ h

theorem ev_mem_of_middle (st : HState) (a b : List Dir) (e : Ev)
    (h : e ∈ (runStream (runStream st a).1 b).2) : e ∈ (runStream st (a ++ b)).2 := by
  rw [runStream_ev_append]
  exact List.mem_append_right _ h

end MTools

namespace MTools

/-- Claim C1: if a depth-first directory stream visits a subtree `A` at
path `pA` (its depth-first stream embedded contiguously, entered while the
stack does not already hold `pA`'s full chain, and left at a diverging
path `m0`) and later a subtree `B` at `pB` likewise, and `A` and `B` have
identical recursive entry-name structures (same shape and the same
`(is_subdir, name)` lists at every level, in the same order), then the
hex digests finalized on pop for the roots of `A` and `B` are equal: both
pop events carry the same absorbed byte sequence `chunksT A = chunksT B`. -/
theorem dfs_identical_subtrees_equal_digests
    (pre mid post : List Dir) (pA pB : List Nat) (A B : DirTree) (m0 q0 : Dir)
    (hwA : wfT A = true) (hwB : wfT B = true)
    (hstruct : eqStructT A B = true)
    (hkA : commonLvl (names (runStream [] pre).1) (splitB pA) < (splitB pA).length)
    (hm0 : leads (splitB pA) (splitB m0.path) = false)
    (hkB : commonLvl (names (runStream [] (pre ++ dfsT pA A ++ (m0 :: mid))).1) (splitB pB)
            < (splitB pB).length)
    (hq0 : leads (splitB pB) (splitB q0.path) = false) :
    ∃ c1 c2,
      Ev.pop pA c1 (chunksT A)
          ∈ (runStream [] (pre ++ dfsT pA A ++ (m0 :: mid) ++ dfsT pB B ++ (q0 :: post))).2
      ∧ Ev.pop pB c2 (chunksT B)
          ∈ (runStream [] (pre ++ dfsT pA A ++ (m0 :: mid) ++ dfsT pB B ++ (q0 :: post))).2
      ∧ chunksT A = chunksT B := by
  have hlenA := splitB_length_pos pA
  have hlenB := splitB_length_pos pB
  -- the A subtree: run its stream from the state left by `pre`
  obtain ⟨⟨spN, hnames⟩, lvA, hgetA, hlvA⟩ :=
    runDfs_pop_ready A pA (runStream [] pre).1 hwA hkA
  have hcl : commonLvl (names (runStream (runStream [] pre).1 (dfsT pA A)).1)
      (splitB m0.path) ≤ (splitB pA).length - 1 := by
    rw [hnames]
    have h := commonLvl_lt_of_not_leads (splitB pA) spN (splitB m0.path) (by simp [hm0])
    omega
  obtain ⟨parA, hmemA⟩ :=
    selectOp_ev_mem (runStream (runStream [] pre).1 (dfsT pA A)).1 m0.path
      ((splitB pA).length - 1) lvA hgetA hcl
  have hpathA : (names (runStream (runStream [] pre).1 (dfsT pA A)).1).take
      ((splitB pA).length - 1 + 1) = splitB pA := by
    rw [hnames]
    have h1 : (splitB pA).length - 1 + 1 = (splitB pA).length := by omega
    rw [h1, take_len_append]
  rw [hpathA, joinB_splitB, hlvA] at hmemA
  have hSA : (runStream [] (pre ++ dfsT pA A)).1
      = (runStream (runStream [] pre).1 (dfsT pA A)).1 :=
    runStream_state_append [] pre (dfsT pA A)
  have hmemA2 : Ev.pop pA parA (chunksT A)
      ∈ (runStream (runStream [] (pre ++ dfsT pA A)).1 (m0 :: mid)).2 := by
    rw [runStream_cons_ev]
    apply List.mem_append_left
    rw [processDir_ev, hSA]
    exact hmemA
  have hmemAfull : Ev.pop pA parA (chunksT A)
      ∈ (runStream [] (pre ++ dfsT pA A ++ (m0 :: mid) ++ dfsT pB B ++ (q0 :: post))).2 := by
    apply ev_mem_left
    apply ev_mem_left
    exact ev_mem_of_middle [] (pre ++ dfsT pA A) (m0 :: mid) _ hmemA2
  -- the B subtree: run its stream from the state left after `m0 :: mid`
  obtain ⟨⟨spNB, hnamesB⟩, lvB, hgetB, hlvB⟩ :=
    runDfs_pop_ready B pB (runStream [] (pre ++ dfsT pA A ++ (m0 :: mid))).1 hwB hkB
  have hclB : commonLvl
      (names (runStream (runStream [] (pre ++ dfsT pA A ++ (m0 :: mid))).1 (dfsT pB B)).1)
      (splitB q0.path) ≤ (splitB pB).length - 1 := by
    rw [hnamesB]
    have h := commonLvl_lt_of_not_leads (splitB pB) spNB (splitB q0.path) (by simp [hq0])
    omega
  obtain ⟨parB, hmemB⟩ :=
    selectOp_ev_mem
      (runStream (runStream [] (pre ++ dfsT pA A ++ (m0 :: mid))).1 (dfsT pB B)).1 q0.path
      ((splitB pB).length - 1) lvB hgetB hclB
  have hpathB : (names
      (runStream (runStream [] (pre ++ dfsT pA A ++ (m0 :: mid))).1 (dfsT pB B)).1).take
      ((splitB pB).length - 1 + 1) = splitB pB := by
    rw [hnamesB]
    have h1 : (splitB pB).length - 1 + 1 = (splitB pB).length := by omega
    rw [h1, take_len_append]
  rw [hpathB, joinB_splitB, hlvB] at hmemB
  have hSB : (runStream [] (pre ++ dfsT pA A ++ (m0 :: mid) ++ dfsT pB B)).1
      = (runStream (runStream [] (pre ++ dfsT pA A ++ (m0 :: mid))).1 (dfsT pB B)).1 :=
    runStream_state_append [] (pre ++ dfsT pA A ++ (m0 :: mid)) (dfsT pB B)
  have hmemB2 : Ev.pop pB parB (chunksT B)
      ∈ (runStream (runStream [] (pre ++ dfsT pA A ++ (m0 :: mid) ++ dfsT pB B)).1
          (q0 :: post)).2 := by
    rw [runStream_cons_ev]
    apply List.mem_append_left
    rw [processDir_ev, hSB]
    exact hmemB
  have hmemBfull : Ev.pop pB parB (chunksT B)
      ∈ (runStream [] (pre ++ dfsT pA A ++ (m0 :: mid) ++ dfsT pB B ++ (q0 :: post))).2 :=
    ev_mem_of_middle [] (pre ++ dfsT pA A ++ (m0 :: mid) ++ dfsT pB B) (q0 :: post) _ hmemB2
  exact ⟨parA, parB, hmemAfull, hmemBfull, chunksT_eq_of_eqStruct A B hstruct⟩

end MTools

namespace MTools

/-- Concrete subtree for the C1 witness: contents `[(True, b'x')]` with one
child `x` that is empty. -/
def c1wA : DirTree :=
  .node [(true, [120])] (.cons [120] (.node [] .nil) .nil)

/-- Same structure with a differently named child: the digest depends only
on the entry lists, not on the path segments. -/
def c1wB : DirTree :=
  .node [(true, [120])] (.cons [121] (.node [] .nil) .nil)

/-- Witness for C1: a concrete stream `/a`, `/a/x`, `/z`, `/b`, `/b/y`,
`/w` in which the two structurally identical subtrees at `/a` and `/b`
finalize the same digest. -/
theorem dfs_identical_subtrees_equal_digests_witness :
    ∃ c1 c2,
      Ev.pop [47, 97] c1 (chunksT c1wA)
          ∈ (runStream [] ([] ++ dfsT [47, 97] c1wA ++ (Dir.mk [47, 122] [] :: [])
              ++ dfsT [47, 98] c1wB ++ (Dir.mk [47, 119] [] :: []))).2
      ∧ Ev.pop [47, 98] c2 (chunksT c1wB)
          ∈ (runStream [] ([] ++ dfsT [47, 97] c1wA ++ (Dir.mk [47, 122] [] :: [])
              ++ dfsT [47, 98] c1wB ++ (Dir.mk [47, 119] [] :: []))).2
      ∧ chunksT c1wA = chunksT c1wB :=
  dfs_identical_subtrees_equal_digests [] [] [] [47, 97] [47, 98] c1wA c1wB
    (Dir.mk [47, 122] []) (Dir.mk [47, 119] [])
    (by decide) (by decide) (by decide) (by decide) (by decide) (by decide) (by decide)

end MTools

namespace MTools

/-! ## The duplicate reducer of `dup_dirs.App`

`DictOfLists` is an insertion-ordered dictionary mapping a key to a list
of values; `add_to` appends to an existing key's list (keeping its
position) or appends a new `(key, [value])` entry at the end.  We model it
as an ordered association list.  `App.pop_handler` consumes one pop event
`(parent_ck, dpath, ck)`: `tree.add_to(parent_ck, ck)` and
`by_ck.add_to(ck, dpath)`, where `parent_ck` is the running digest of the
stack top right after the pop and `dpath` the joined full path. -/

/-- Ordered dictionary of lists with byte-string keys and values. -/
abbrev DL := List (List Nat × List (List Nat))

/-- `DictOfLists.add_to`. -/
def addTo (m : DL) (k : List Nat) (v : List Nat) : DL :=
  match m with
  | [] => [(k, [v])]
  | (k', vs) :: rest =>
    if k' = k then (k', vs ++ [v]) :: rest else (k', vs) :: addTo rest k v

/-- `DictOfLists.__getitem__`: the empty list for a missing key. -/
def getDL (m : DL) (k : List Nat) : List (List Nat) :=
  match m with
  | [] => []
  | (k', vs) :: rest => if k' = k then vs else getDL rest k

/-- One pop event as consumed by `App.pop_handler`. -/
structure PopEv where
  parentCk : List Nat
  path : List Nat
  ck : List Nat
deriving DecidableEq, Repr

/-- `App.pop_handler` on the pair `(tree, by_ck)`. -/
def redStep (s : DL × DL) (e : PopEv) : DL × DL :=
  (addTo s.1 e.parentCk e.ck, addTo s.2 e.ck e.path)

/-- The reducer state after consuming a pop-event stream. -/
def reduceEvents (evs : List PopEv) : DL × DL := evs.foldl redStep ([], [])

/-- The reversed tree built at the start of `App.report`: for every
`(ck, contents)` of `tree` and every `d` in `contents`, `rtree.add_to(d, ck)`. -/
def buildRtree (tree : DL) : DL :=
  tree.foldl (fun r e => e.2.foldl (fun r2 d => addTo r2 d e.1) r) []

/-- The duplicated checksums of `App.report`: keys of `by_ck` that are not
`EMPTY_DIR_CK` and have more than one recorded path. -/
def dupsOf (byck : DL) : List (List Nat) :=
  (byck.filter (fun e => decide (e.1 ≠ emptyDirCk) && decide (1 < e.2.length))).map Prod.fst

/-- Report classification printed by `App.report`. -/
inductive Typ where
  | top : Typ
  | mix : Typ
deriving DecidableEq, Repr

/-- One emitted report line: digest, count, classification and the member
paths (printed sorted; the set of members is `by_ck[ck]`). -/
structure RepEntry where
  ck : List Nat
  count : Nat
  typ : Typ
  dirs : List (List Nat)
deriving DecidableEq, Repr

/-- `App.report`: for every duplicated checksum, look up its recorded
parent digests; skip it when all of them are duplicated themselves
(`sub`), otherwise emit it as `top` (no duplicated parent) or `mix`. -/
def reportOf (tree byck : DL) : List RepEntry :=
  let rtree := buildRtree tree
  let dups := dupsOf byck
  dups.filterMap (fun ck =>
    let parents := getDL rtree ck
    let tops := parents.filter (fun pd => decide (pd ∉ dups))
    if tops.isEmpty then none
    else some ⟨ck, (getDL byck ck).length,
      (if tops.length < parents.length then Typ.mix else Typ.top), getDL byck ck⟩)

/-- All paths printed by the report. -/
def reportedPaths (r : List RepEntry) : List (List Nat) :=
  (r.map RepEntry.dirs).flatten

/-- Keys of a `DictOfLists`. -/
def keysDL (m : DL) : List (List Nat) := m.map Prod.fst

end MTools

namespace MTools

theorem getDL_addTo_same (m : DL) (k v : List Nat) :
    getDL (addTo m k v) k = getDL m k ++ [v] := by
  induction m with
  | nil => simp [addTo, getDL]
  | cons e rest ih =>
    cases e with
    | mk k' vs =>
      by_cases h : k' = k
      · subst h
        simp [addTo, getDL]
      · simp [addTo, getDL, h, ih]

theorem getDL_ne_nil_mem (m : DL) (k : List Nat) (h : getDL m k ≠ []) :
    (k, getDL m k) ∈ m := by
  induction m with
  | nil => simp [getDL] at h
  | cons e rest ih =>
    cases e with
    | mk k' vs =>
      by_cases hk : k' = k
      · subst hk
        simp only [getDL, if_pos rfl] at h ⊢
        exact List.mem_cons_self _ _
      · simp only [getDL, if_neg hk] at h ⊢
        exact List.mem_cons_of_mem _ (ih h)

theorem getDL_of_mem (m : DL) (k : List Nat) (vs : List (List Nat))
    (hm : (k, vs) ∈ m) (hnd : (keysDL m).Nodup) : getDL m k = vs := by
  induction m with
  | nil => simp at hm
  | cons e rest ih =>
    cases e with
    | mk k' vs' =>
      simp only [keysDL, List.map_cons, List.nodup_cons] at hnd
      rcases List.mem_cons.mp hm with hh | ht
      · have h1 : k = k' := congrArg Prod.fst hh
        have h2 : vs = vs' := congrArg Prod.snd hh
        subst h1
        subst h2
        simp [getDL]
      · have hkne : k' ≠ k := by
          intro he
          subst he
          exact hnd.1 (by
            have : k' ∈ (rest.map Prod.fst) := List.mem_map.mpr ⟨(k', vs), ht, rfl⟩
            simpa [keysDL] using this)
        simp only [getDL, if_neg hkne]
        exact ih ht (by simpa [keysDL] using hnd.2)

theorem keysDL_addTo (m : DL) (k v : List Nat) :
    keysDL (addTo m k v) = if k ∈ keysDL m then keysDL m else keysDL m ++ [k] := by
  induction m with
  | nil => simp [addTo, keysDL]
  | cons e rest ih =>
    cases e with
    | mk k' vs =>
      by_cases h : k' = k
      · subst h
        simp [addTo, keysDL]
      · have hne : ¬ k ∈ ([k'] : List (List Nat)) := by simp [Ne.symm h]
        simp only [addTo, if_neg h, keysDL, List.map_cons]
        simp only [keysDL] at ih
        rw [ih]
        by_cases hmem : k ∈ rest.map Prod.fst
        · simp [hmem, Ne.symm h]
        · simp [hmem, Ne.symm h]

theorem keysDL_addTo_nodup (m : DL) (k v : List Nat)
    (h : (keysDL m).Nodup) : (keysDL (addTo m k v)).Nodup := by
  rw [keysDL_addTo]
  by_cases hmem : k ∈ keysDL m
  · simp [hmem, h]
  · simp only [if_neg hmem]
    rw [List.nodup_append]
    refine ⟨h, by simp, ?_⟩
    intro a ha hb
    simp only [List.mem_singleton] at hb
    subst hb
    exact hmem ha

theorem reduceEvents_nodup (evs : List PopEv) :
    (keysDL (reduceEvents evs).1).Nodup ∧ (keysDL (reduceEvents evs).2).Nodup := by
  suffices h : ∀ s : DL × DL, (keysDL s.1).Nodup → (keysDL s.2).Nodup →
      (keysDL (evs.foldl redStep s).1).Nodup ∧ (keysDL (evs.foldl redStep s).2).Nodup by
    exact h ([], []) (by simp [keysDL]) (by simp [keysDL])
  induction evs with
  | nil =>
    intro s h1 h2
    exact ⟨h1, h2⟩
  | cons e rest ih =>
    intro s h1 h2
    exact ih _ (keysDL_addTo_nodup _ _ _ h1) (keysDL_addTo_nodup _ _ _ h2)

theorem mem_dupsOf_iff (byck : DL) (hnd : (keysDL byck).Nodup) (d : List Nat) :
    d ∈ dupsOf byck ↔ (d ≠ emptyDirCk ∧ 1 < (getDL byck d).length) := by
  unfold dupsOf
  constructor
  · intro h
    rw [List.mem_map] at h
    obtain ⟨e, he, hfst⟩ := h
    rw [List.mem_filter] at he
    obtain ⟨hemem, hpred⟩ := he
    simp only [Bool.and_eq_true, decide_eq_true_eq] at hpred
    cases e with
    | mk k vs =>
      simp only at hfst
      subst hfst
      have hget := getDL_of_mem byck k vs hemem hnd
      exact ⟨hpred.1, by rw [hget]; exact hpred.2⟩
  · rintro ⟨h1, h2⟩
    have hne : getDL byck d ≠ [] := by
      intro hh
      rw [hh] at h2
      simp at h2
    have hm := getDL_ne_nil_mem byck d hne
    rw [List.mem_map]
    exact ⟨(d, getDL byck d), List.mem_filter.mpr ⟨hm, by simp [h1, h2]⟩, rfl⟩

theorem filter_length_eq_iff {α : Type} (l : List α) (p : α → Bool) :
    (l.filter p).length = l.length ↔ ∀ a ∈ l, p a = true := by
  induction l with
  | nil => simp
  | cons x xs ih =>
    by_cases h : p x = true
    · simp [List.filter_cons, h, ih]
    · have hle := List.length_filter_le p xs
      simp only [List.filter_cons, h, if_neg]
      rw [Bool.not_eq_true] at h
      simp only [h, Bool.false_eq_true, if_false, List.length_cons]
      constructor
      · intro hlen
        omega
      · intro hall
        have := hall x (by simp)
        rw [h] at this
        simp at this

theorem exists_not_of_filter_length_lt {α : Type} (l : List α) (p : α → Bool)
    (h : (l.filter p).length < l.length) : ∃ a ∈ l, p a = false := by
  by_contra hc
  push_neg at hc
  have hall : ∀ a ∈ l, p a = true := by
    intro a ha
    cases hpa : p a with
    | false => exact absurd hpa (hc a ha)
    | true => rfl
  rw [(filter_length_eq_iff l p).mpr hall] at h
  omega

theorem filter_isEmpty_false_iff {α : Type} (l : List α) (p : α → Bool) :
    (l.filter p).isEmpty = false ↔ ∃ a ∈ l, p a = true := by
  induction l with
  | nil => simp
  | cons x xs ih =>
    by_cases h : p x = true
    · simp [List.filter_cons, h]
    · rw [Bool.not_eq_true] at h
      simp [List.filter_cons, h, ih]

end MTools

namespace MTools

theorem reportOf_mem_elim (tree byck : DL) (r : RepEntry) (hr : r ∈ reportOf tree byck) :
    r.ck ∈ dupsOf byck
    ∧ ((getDL (buildRtree tree) r.ck).filter
        (fun pd => decide (pd ∉ dupsOf byck))).isEmpty = false
    ∧ r.count = (getDL byck r.ck).length
    ∧ r.dirs = getDL byck r.ck
    ∧ r.typ = (if ((getDL (buildRtree tree) r.ck).filter
          (fun pd => decide (pd ∉ dupsOf byck))).length
          < (getDL (buildRtree tree) r.ck).length then Typ.mix else Typ.top) := by
  simp only [reportOf] at hr
  rw [List.mem_filterMap] at hr
  obtain ⟨ck', hmem, hf⟩ := hr
  split at hf
  · exact absurd hf (by simp)
  · next hne =>
    have hr' := (Option.some.injEq _ _).mp hf
    subst hr'
    refine ⟨hmem, ?_, rfl, rfl, rfl⟩
    rw [Bool.not_eq_true] at hne
    exact hne

theorem reportOf_mem_intro (tree byck : DL) (d : List Nat)
    (hd : d ∈ dupsOf byck)
    (hne : ((getDL (buildRtree tree) d).filter
        (fun pd => decide (pd ∉ dupsOf byck))).isEmpty = false) :
    (⟨d, (getDL byck d).length,
      (if ((getDL (buildRtree tree) d).filter
            (fun pd => decide (pd ∉ dupsOf byck))).length
          < (getDL (buildRtree tree) d).length then Typ.mix else Typ.top),
      getDL byck d⟩ : RepEntry) ∈ reportOf tree byck := by
  simp only [reportOf]
  rw [List.mem_filterMap]
  refine ⟨d, hd, ?_⟩
  split
  · next hempty =>
    rw [hne] at hempty
    exact absurd hempty (by simp)
  · rfl

/-- Claim C3: over every run of the duplicate reducer on a pop-event
stream, the report emits a digest `d` iff more than one directory path
finalized to `d`, `d` differs from `EMPTY_DIR_CK` (the digest of the
serialization `b'[]'` of the empty entry list), and at least one recorded
parent digest of `d` is not itself a duplicate digest; the emitted
classification is `top` iff no recorded parent digest is a duplicate and
`mix` iff some but not all are. -/
theorem report_emits_iff (evs : List PopEv) (d : List Nat) :
    ((∃ r ∈ reportOf (reduceEvents evs).1 (reduceEvents evs).2, r.ck = d)
      ↔ (1 < (getDL (reduceEvents evs).2 d).length ∧ d ≠ emptyDirCk
          ∧ ∃ pd ∈ getDL (buildRtree (reduceEvents evs).1) d,
              pd ∉ dupsOf (reduceEvents evs).2))
    ∧ (∀ r ∈ reportOf (reduceEvents evs).1 (reduceEvents evs).2, r.ck = d →
        ((r.typ = Typ.top ↔ ∀ pd ∈ getDL (buildRtree (reduceEvents evs).1) d,
            pd ∉ dupsOf (reduceEvents evs).2)
         ∧ (r.typ = Typ.mix ↔
            ((∃ pd ∈ getDL (buildRtree (reduceEvents evs).1) d,
                pd ∈ dupsOf (reduceEvents evs).2)
             ∧ (∃ pd ∈ getDL (buildRtree (reduceEvents evs).1) d,
                pd ∉ dupsOf (reduceEvents evs).2))))) := by
  have hnd := (reduceEvents_nodup evs).2
  constructor
  · constructor
    · rintro ⟨r, hr, hck⟩
      obtain ⟨hdup, hne, _, _, _⟩ := reportOf_mem_elim _ _ r hr
      rw [hck] at hdup hne
      have hd := (mem_dupsOf_iff _ hnd d).mp hdup
      obtain ⟨pd, hpd, hpdt⟩ := (filter_isEmpty_false_iff _ _).mp hne
      exact ⟨hd.2, hd.1, pd, hpd, by simpa using hpdt⟩
    · rintro ⟨h2, h1, pd, hpd, hpdnot⟩
      have hd : d ∈ dupsOf (reduceEvents evs).2 := (mem_dupsOf_iff _ hnd d).mpr ⟨h1, h2⟩
      have hne : ((getDL (buildRtree (reduceEvents evs).1) d).filter
          (fun pd => decide (pd ∉ dupsOf (reduceEvents evs).2))).isEmpty = false :=
        (filter_isEmpty_false_iff _ _).mpr ⟨pd, hpd, by simpa using hpdnot⟩
      exact ⟨_, reportOf_mem_intro _ _ d hd hne, rfl⟩
  · intro r hr hck
    obtain ⟨hdup, hne, _, _, htyp⟩ := reportOf_mem_elim _ _ r hr
    rw [hck] at hne htyp
    have hle := List.length_filter_le
      (fun pd => decide (pd ∉ dupsOf (reduceEvents evs).2))
      (getDL (buildRtree (reduceEvents evs).1) d)
    constructor
    · constructor
      · intro ht
        rw [ht] at htyp
        intro pd hpd
        by_cases hcase : ((getDL (buildRtree (reduceEvents evs).1) d).filter
            (fun pd => decide (pd ∉ dupsOf (reduceEvents evs).2))).length
            < (getDL (buildRtree (reduceEvents evs).1) d).length
        · rw [if_pos hcase] at htyp
          exact absurd htyp (by simp)
        · have heq : ((getDL (buildRtree (reduceEvents evs).1) d).filter
              (fun pd => decide (pd ∉ dupsOf (reduceEvents evs).2))).length
              = (getDL (buildRtree (reduceEvents evs).1) d).length := by omega
          have := (filter_length_eq_iff _ _).mp heq pd hpd
          simpa using this
      · intro hall
        have heq : ((getDL (buildRtree (reduceEvents evs).1) d).filter
            (fun pd => decide (pd ∉ dupsOf (reduceEvents evs).2))).length
            = (getDL (buildRtree (reduceEvents evs).1) d).length :=
          (filter_length_eq_iff _ _).mpr (fun a ha => by simpa using hall a ha)
        rw [htyp, if_neg (by omega)]
    · constructor
      · intro ht
        rw [ht] at htyp
        by_cases hcase : ((getDL (buildRtree (reduceEvents evs).1) d).filter
            (fun pd => decide (pd ∉ dupsOf (reduceEvents evs).2))).length
            < (getDL (buildRtree (reduceEvents evs).1) d).length
        · obtain ⟨pd, hpd, hpdf⟩ := exists_not_of_filter_length_lt _ _ hcase
          have hpdin : pd ∈ dupsOf (reduceEvents evs).2 := by
            have hnn := of_decide_eq_false hpdf
            exact not_not.mp hnn
          obtain ⟨pq, hpq, hpqt⟩ := (filter_isEmpty_false_iff _ _).mp hne
          exact ⟨⟨pd, hpd, hpdin⟩, pq, hpq, by simpa using hpqt⟩
        · rw [if_neg hcase] at htyp
          exact absurd htyp (by simp)
      · rintro ⟨⟨pd, hpd, hpdin⟩, pq, hpq, hpqnot⟩
        rw [htyp]
        have hneq : ((getDL (buildRtree (reduceEvents evs).1) d).filter
            (fun pd => decide (pd ∉ dupsOf (reduceEvents evs).2))).length
            ≠ (getDL (buildRtree (reduceEvents evs).1) d).length := by
          intro heq
          have := (filter_length_eq_iff _ _).mp heq pd hpd
          simp only [decide_eq_true_eq] at this
          exact this hpdin
        rw [if_pos (by omega)]

end MTools

namespace MTools

/-- Extract the `(parent_ck, dpath, ck)` triples that `App.pop_handler`
receives from a machine event list; `none` when a pop occurred on a stack
that became empty (`get_checksum(-1)` would raise `IndexError`). -/
def evTriples : List Ev → Option (List PopEv)
  | [] => some []
  | Ev.push _ :: rest => evTriples rest
  | Ev.pop path par ck :: rest =>
    match par with
    | none => none
    | some pc => (evTriples rest).map (fun ts => PopEv.mk pc path ck :: ts)

/-- Byte-level prefix test. -/
def leadsB : List Nat → List Nat → Bool
  | [], _ => true
  | _ :: _, [] => false
  | a :: as_, b :: bs_ => a = b && leadsB as_ bs_

/-- Counterexample stream for C2: `/u/v1` and `/u/v2` are identical
subtrees, each with children `a` (contents `[(False, b'f')]`) and `b`
(contents `[(False, b'g')]`); `/w` flushes the stack. -/
def c2Stream : List Dir :=
  [⟨[47, 117, 47, 118, 49], [(true, [97]), (true, [98])]⟩,
   ⟨[47, 117, 47, 118, 49, 47, 97], [(false, [102])]⟩,
   ⟨[47, 117, 47, 118, 49, 47, 98], [(false, [103])]⟩,
   ⟨[47, 117, 47, 118, 50], [(true, [97]), (true, [98])]⟩,
   ⟨[47, 117, 47, 118, 50, 47, 97], [(false, [102])]⟩,
   ⟨[47, 117, 47, 118, 50, 47, 98], [(false, [103])]⟩,
   ⟨[47, 119], []⟩]

/-- The duplicate report produced by running the full dups pipeline on
`c2Stream`. -/
def c2Report : List RepEntry :=
  match evTriples (runStream [] c2Stream).2 with
  | some ts => reportOf (reduceEvents ts).1 (reduceEvents ts).2
  | none => []

/-- Claim C2 counterexample: on `c2Stream` the directory `/u/v1/a` is
emitted with classification `top`, yet its ancestor `/u/v1` also appears
in the reported set (emitted as `mix`): the parent digest recorded when
`a` popped is the parent's intermediate state, which is not a duplicate
digest even though the parent's final digest is. -/
theorem top_with_reported_ancestor_cex :
    (c2Report.any (fun r => decide (r.typ = Typ.top)
        && decide ([47, 117, 47, 118, 49, 47, 97] ∈ r.dirs))) = true
    ∧ [47, 117, 47, 118, 49] ∈ reportedPaths c2Report
    ∧ leadsB ([47, 117, 47, 118, 49] ++ [47]) [47, 117, 47, 118, 49, 47, 97] = true := by
  decide

/-- Claim C2 amended: every report entry classified `top` has no recorded
parent digest (the running digest of the stack top at each member's pop)
in the duplicate digest set.  This is what the code guarantees; it does
not exclude an ancestor directory from the reported set, because the
recorded parent digest is the parent's intermediate state, not its final
digest. -/
theorem top_entry_parents_not_dup (evs : List PopEv) (r : RepEntry)
    (hr : r ∈ reportOf (reduceEvents evs).1 (reduceEvents evs).2)
    (ht : r.typ = Typ.top) :
    ∀ pd ∈ getDL (buildRtree (reduceEvents evs).1) r.ck,
      pd ∉ dupsOf (reduceEvents evs).2 := by
  obtain ⟨_, _, _, _, htyp⟩ := reportOf_mem_elim _ _ r hr
  rw [ht] at htyp
  intro pd hpd
  have hle := List.length_filter_le
    (fun pd => decide (pd ∉ dupsOf (reduceEvents evs).2))
    (getDL (buildRtree (reduceEvents evs).1) r.ck)
  by_cases hcase : ((getDL (buildRtree (reduceEvents evs).1) r.ck).filter
      (fun pd => decide (pd ∉ dupsOf (reduceEvents evs).2))).length
      < (getDL (buildRtree (reduceEvents evs).1) r.ck).length
  · rw [if_pos hcase] at htyp
    exact absurd htyp (by simp)
  · have heq : ((getDL (buildRtree (reduceEvents evs).1) r.ck).filter
        (fun pd => decide (pd ∉ dupsOf (reduceEvents evs).2))).length
        = (getDL (buildRtree (reduceEvents evs).1) r.ck).length := by omega
    have hpdt := (filter_length_eq_iff _ _).mp heq pd hpd
    simpa using hpdt

/-- Pop events feeding the C2 witness: two directories with digest `d`
and a non-duplicated recorded parent `p`. -/
def c2wEvs : List PopEv :=
  [⟨[112], [47, 97], [100]⟩, ⟨[112], [47, 98], [100]⟩]

/-- Witness for the amended C2 at a concrete event stream. -/
theorem top_entry_parents_not_dup_witness :
    [112] ∉ dupsOf (reduceEvents c2wEvs).2 :=
  top_entry_parents_not_dup c2wEvs
    ⟨[100], 2, Typ.top, [[47, 97], [47, 98]]⟩ (by decide) (by decide)
    [112] (by decide)

/-- Pop events feeding the C3 witness. -/
def c3wEvs : List PopEv :=
  [⟨[112], [47, 97], [100]⟩, ⟨[112], [47, 98], [100]⟩]

/-- Witness for C3 at a concrete event stream: the duplicated digest
`[100]` with a non-duplicated parent is emitted. -/
theorem report_emits_iff_witness :
    ∃ r ∈ reportOf (reduceEvents c3wEvs).1 (reduceEvents c3wEvs).2, r.ck = [100] :=
  (report_emits_iff c3wEvs [100]).1.mpr (by decide)

end MTools

namespace MTools

/-! ## `read_cstring` (binutils.py and mlocate.py)

The Python loop is `b = f.read(1); while b != b'\0': buf += b; b = f.read(1)`.
At end of stream `f.read(1)` returns the empty bytes `b''`, which is not
`b'\0'`, so the loop appends nothing and reads again: it never terminates
and never raises.  `rcRun` is the loop with an explicit iteration budget:
`none` means the budget was exhausted without the loop returning. -/

/-- The `read_cstring` loop with an iteration budget. -/
def rcRun (fuel : Nat) (buf : List Nat) (s : List Nat) : Option (List Nat × List Nat) :=
  match fuel with
  | 0 => none
  | f + 1 =>
    match s with
    | [] => rcRun f buf []
    | c :: r => if c = 0 then some (buf, r) else rcRun f (buf ++ [c]) r

theorem rcRun_terminates (s : List Nat) (r buf : List Nat) (n : Nat)
    (h0 : 0 ∉ s) (hn : s.length < n) :
    rcRun n buf (s ++ 0 :: r) = some (buf ++ s, r) := by
  induction s generalizing buf n with
  | nil =>
    cases n with
    | zero => omega
    | succ f => simp [rcRun]
  | cons c cs ih =>
    simp only [List.mem_cons, not_or] at h0
    have hc : ¬ c = 0 := fun hcc => h0.1 hcc.symm
    cases n with
    | zero => omega
    | succ f =>
      simp only [List.cons_append, rcRun, if_neg hc]
      rw [ih (buf ++ [c]) f h0.2 (by simp at hn; omega)]
      simp

theorem rcRun_diverges (s : List Nat) (h0 : 0 ∉ s) :
    ∀ (n : Nat) (buf : List Nat), rcRun n buf s = none := by
  intro n
  induction n generalizing s with
  | zero => intro buf; rfl
  | succ f ih =>
    intro buf
    cases s with
    | nil => simpa [rcRun] using ih [] (by simp) buf
    | cons c r =>
      simp only [List.mem_cons, not_or] at h0
      have hc : ¬ c = 0 := fun hcc => h0.1 hcc.symm
      simp only [rcRun, if_neg hc]
      exact ih r h0.2 (buf ++ [c])

/-- Claim C5 (code bug): on a stream holding a null, `read_cstring`
returns exactly the bytes before the first null, consuming the null and
decoding nothing; but on a stream that ends before any null it never
fails with any error — the loop reads the empty string forever, under no
budget producing a result. -/
theorem read_cstring_behavior (s r buf : List Nat) (n : Nat) :
    (0 ∉ s → s.length < n → rcRun n [] (s ++ 0 :: r) = some (s, r))
    ∧ (0 ∉ s → rcRun n buf s = none) := by
  constructor
  · intro h0 hn
    have h := rcRun_terminates s r [] n h0 hn
    simpa using h
  · intro h0
    exact rcRun_diverges s h0 n buf

/-- Witness for C5: `b'abc\0\x01'` yields `b'abc'` with the null consumed;
`b'abc'` alone never returns, whatever the budget. -/
theorem read_cstring_behavior_witness :
    rcRun 4 [] [97, 98, 99, 0, 1] = some ([97, 98, 99], [1])
    ∧ rcRun 9 [7] [97, 98, 99] = none := by
  constructor
  · have h := (read_cstring_behavior [97, 98, 99] [1] [] 4).1 (by decide) (by decide)
    simpa using h
  · exact (read_cstring_behavior [97, 98, 99] [1] [7] 9).2 (by decide)

/-! ## Timestamp construction (`MLocateDB.load_dirs`)

`datetime.datetime.fromtimestamp(dir_seconds).replace(microsecond=round(dir_nanos / 1000))`.
A datetime is modelled as the pair (seconds, microsecond).
`fromtimestamp` itself can raise: it fails for out-of-range seconds
(`ValueError` when the local-time year falls outside 1..9999, `OSError`
when the platform conversion fails), with bounds that depend on the
platform and the local timezone; its outcome on a seconds value is
therefore a parameter `fts` of the model, `.ok ()` when a datetime comes
back (with microsecond 0 for integer seconds) and `.error` with the
raised kind otherwise.  `replace` then demands
`0 <= microsecond <= 999999`, raising `ValueError` otherwise.  Python's
`round(nanos / 1000)` divides in binary floating point and rounds half to
even; for every signed 32-bit `nanos` the float rounds exactly as the
rational `nanos / 1000` does (the quotient is below 2^22, so the float
error is far smaller than the distance to any half-integer boundary), so
it is modelled as exact half-even rounding. -/

/-- Python `round(nanos / 1000)` as exact half-to-even rounding. -/
def roundDiv1000 (nanos : Int) : Int :=
  let q := nanos / 1000
  let r := nanos % 1000
  if r < 500 then q
  else if 500 < r then q + 1
  else if q % 2 = 0 then q else q + 1

/-- The `replace(microsecond=round(nanos/1000))` stage alone: succeeds
with the rounded microsecond when it lies in 0..999999, raises
`ValueError` otherwise. -/
def replaceMicro (nanos : Int) : Except String Int :=
  let micro := roundDiv1000 nanos
  if 0 ≤ micro ∧ micro ≤ 999999 then .ok micro
  else .error "ValueError"

/-- The timestamp construction of `load_dirs`: `fromtimestamp(seconds)`
first (outcome given by `fts`, see above), then the `replace` call. -/
def mkMtime (fts : Int → Except String Unit) (seconds nanos : Int) :
    Except String (Int × Int) :=
  match fts seconds with
  | .error e => .error e
  | .ok _ =>
    match replaceMicro nanos with
    | .ok micro => .ok (seconds, micro)
    | .error e => .error e

/-- Claim C6 counterexample: a nanos field of 10^9 is not tolerated — the
`replace` call raises `ValueError` (round(10^9/1000) = 10^6 > 999999), so
the construction fails however `fromtimestamp` behaves on the seconds:
shown for seconds 0 under any `fts` that accepts it, as the real
`fromtimestamp(0)` (the 1970 epoch) does. -/
theorem mkMtime_nanos_1e9_raises :
    replaceMicro 1000000000 = Except.error "ValueError"
    ∧ mkMtime (fun _ => .ok ()) 0 1000000000 = Except.error "ValueError" :=
  ⟨rfl, rfl⟩

/-- Claim C6 amended: when `fromtimestamp(seconds)` returns a datetime,
the construction succeeds exactly when `-500 ≤ nanos ≤ 999999499` (so
that the half-even rounded microsecond lies in 0..999999), and then
yields the epoch seconds plus `round(nanos/1000)` microseconds, while
for `nanos ≥ 10^9` (and already for valid nanos ≥ 999999500) it raises
`ValueError`; when `fromtimestamp` itself raises — seconds outside the
platform- and timezone-dependent datetime range — that error propagates.
Out-of-range fields are fatal errors, never tolerated. -/
theorem mkMtime_spec (fts : Int → Except String Unit) (seconds nanos : Int) :
    (fts seconds = .ok () →
      ((mkMtime fts seconds nanos = Except.ok (seconds, roundDiv1000 nanos)
          ↔ (-500 ≤ nanos ∧ nanos ≤ 999999499))
        ∧ (1000000000 ≤ nanos →
            mkMtime fts seconds nanos = Except.error "ValueError")))
    ∧ (∀ e, fts seconds = .error e → mkMtime fts seconds nanos = .error e) := by
  have hdm := Int.ediv_add_emod nanos 1000
  have hr0 : 0 ≤ nanos % 1000 := Int.emod_nonneg nanos (by decide)
  have hr1 : nanos % 1000 < 1000 := Int.emod_lt_of_pos nanos (by decide)
  have hq2 : nanos / 1000 % 2 = 0 ∨ nanos / 1000 % 2 = 1 := Int.emod_two_eq _
  constructor
  · intro hok
    constructor
    · simp only [mkMtime, hok, replaceMicro, roundDiv1000]
      split_ifs <;> constructor <;> intro hx
        <;> first | rfl | omega | (exfalso; simp at hx)
    · intro hge
      simp only [mkMtime, hok, replaceMicro, roundDiv1000]
      split_ifs <;> first | rfl | (exfalso; omega)
  · intro e he
    simp only [mkMtime, he]

/-- Witness for C6: under a `fromtimestamp` that accepts the seconds,
nanos 999999499 is the last succeeding value and 10^9 raises; a
`fromtimestamp` failure propagates as that error. -/
theorem mkMtime_spec_witness :
    mkMtime (fun _ => .ok ()) 5 999999499 = Except.ok (5, 999999)
    ∧ mkMtime (fun _ => .ok ()) 5 1000000000 = Except.error "ValueError"
    ∧ mkMtime (fun _ => .error "OSError") 5 0 = Except.error "OSError" := by
  refine ⟨?_, ?_, ?_⟩
  · have h := ((mkMtime_spec (fun _ => .ok ()) 5 999999499).1 rfl).1.mpr (by decide)
    simpa using h
  · exact ((mkMtime_spec (fun _ => .ok ()) 5 1000000000).1 rfl).2 (by decide)
  · exact (mkMtime_spec (fun _ => .error "OSError") 5 0).2 "OSError" rfl

end MTools

namespace MTools

/-! ## The directory stream of `MLocateDB.load_dirs`

`load_dirs` repeatedly reads a 16-byte directory header — ending the
stream normally (the `break`) when fewer than 16 bytes come back — then
the null-terminated path, the timestamp, and the entries (`_read_direntry`
reads a signed tag byte; 2 ends the directory, otherwise the entry name
follows).  On a finite input the possible outcomes of reading one
directory are: normal exhaustion at the header; an endless `read_cstring`
loop when the path or a name lacks its terminator (`hang`, see `rcRun`);
`struct.error` when the tag byte is missing (`unpack`); `ValueError` from
the timestamp; or one complete directory and the rest of the input.  The
code raises `TruncatedInput` nowhere — no such outcome exists. -/

/-- `read_cstring` on a finite stream that holds a terminator: the bytes
before the first null and the rest; `none` when there is no null, in
which case the Python loop never returns (`rcRun` diverges). -/
def readC : List Nat → Option (List Nat × List Nat)
  | [] => none
  | b :: rest =>
    if b = 0 then some ([], rest)
    else (readC rest).map (fun pr => (b :: pr.1, pr.2))

theorem readC_length (s a r : List Nat) (h : readC s = some (a, r)) :
    r.length < s.length := by
  induction s generalizing a with
  | nil => simp [readC] at h
  | cons b rest ih =>
    by_cases hb : b = 0
    · simp only [readC, if_pos hb, Option.some.injEq] at h
      cases h
      simp
    · simp only [readC, if_neg hb, Option.map_eq_some'] at h
      obtain ⟨pr, hpr, heq⟩ := h
      have hr : pr.2 = r := congrArg Prod.snd heq
      have := ih pr.1 (by rw [hpr, ← hr])
      simp only [List.length_cons]
      omega

/-- Outcome of the `_read_direntry` loop. -/
inductive EOut where
  | hang : EOut
  | unpack : EOut
  | ok : Contents → List Nat → EOut
deriving DecidableEq, Repr


/-- The `_read_direntry` loop of `load_dirs` with an iteration budget:
read a tag byte (a missing byte is a `struct.error`, `unpack`), stop at
tag 2, otherwise read the null-terminated name (`bool(flag)` is true iff
the byte is nonzero) and continue.  Every iteration consumes at least two
bytes, so a budget of the input length never runs out (`readEntriesF_mono`
below); `readEntries` instantiates the budget that way. -/
def readEntriesF : Nat → List Nat → EOut
  | _, [] => .unpack
  | fuel, tag :: r =>
    if tag = 2 then .ok [] r
    else
      match readC r with
      | none => .hang
      | some (name, r2) =>
        match fuel with
        | 0 => .hang
        | f + 1 =>
          match readEntriesF f r2 with
          | .ok es r3 => .ok ((decide (tag ≠ 0), name) :: es) r3
          | e => e

/-- The `_read_direntry` loop of `load_dirs`. -/
def readEntries (s : List Nat) : EOut := readEntriesF s.length s

theorem readEntriesF_mono (f1 : Nat) :
    ∀ (f2 : Nat) (s : List Nat), s.length ≤ f1 + 1 → s.length ≤ f2 + 1 →
      readEntriesF f1 s = readEntriesF f2 s := by
  induction f1 with
  | zero =>
    intro f2 s h1 h2
    match s with
    | [] => cases f2 <;> rfl
    | [tag] =>
      cases f2 with
      | zero => rfl
      | succ g2 =>
        simp only [readEntriesF]
    | tag :: b :: r => simp at h1
  | succ g ih =>
    intro f2 s h1 h2
    match s with
    | [] => cases f2 <;> rfl
    | tag :: r =>
      cases f2 with
      | zero =>
        match r with
        | [] =>
          simp only [readEntriesF]
        | _ :: _ => simp at h2
      | succ g2 =>
        simp only [readEntriesF]
        by_cases ht : tag = 2
        · rw [if_pos ht, if_pos ht]
        · rw [if_neg ht, if_neg ht]
          cases hrc : readC r with
          | none => rfl
          | some pr =>
            obtain ⟨name, r2⟩ := pr
            have hlen := readC_length r name r2 hrc
            have hr2 : r2.length ≤ g + 1 := by
              simp only [List.length_cons] at h1
              omega
            have hr2' : r2.length ≤ g2 + 1 := by
              simp only [List.length_cons] at h2
              omega
            dsimp only
            rw [ih g2 r2 hr2 hr2']

theorem readEntries_cons (tag : Nat) (r : List Nat) :
    readEntries (tag :: r)
      = if tag = 2 then .ok [] r
        else match readC r with
          | none => .hang
          | some (name, r2) =>
            match readEntries r2 with
            | .ok es r3 => .ok ((decide (tag ≠ 0), name) :: es) r3
            | e => e := by
  show readEntriesF (r.length + 1) (tag :: r) = _
  simp only [readEntriesF, readEntries]
  by_cases ht : tag = 2
  · rw [if_pos ht, if_pos ht]
  · rw [if_neg ht, if_neg ht]
    cases hrc : readC r with
    | none => rfl
    | some pr =>
      obtain ⟨name, r2⟩ := pr
      have hlen := readC_length r name r2 hrc
      dsimp only
      rw [readEntriesF_mono r.length r2.length r2 (by omega) (by omega)]

theorem readEntriesF_length (f : Nat) :
    ∀ (s : List Nat) (es : Contents) (r : List Nat),
      readEntriesF f s = .ok es r → r.length < s.length := by
  induction f with
  | zero =>
    intro s es r h
    match s with
    | [] => simp [readEntriesF] at h
    | tag :: rr =>
      simp only [readEntriesF] at h
      split at h
      · cases h
        simp
      · split at h
        · simp at h
        · simp at h
  | succ g ih =>
    intro s es r h
    match s with
    | [] => simp [readEntriesF] at h
    | tag :: rr =>
      simp only [readEntriesF] at h
      split at h
      · cases h
        simp
      · split at h
        · simp at h
        · next name r2 hrc =>
          cases hre : readEntriesF g r2 with
          | hang =>
            rw [hre] at h
            simp at h
          | unpack =>
            rw [hre] at h
            simp at h
          | ok es3 r3 =>
            rw [hre] at h
            cases h
            have h1 := ih r2 es3 r hre
            have h2 := readC_length rr name r2 hrc
            simp only [List.length_cons]
            omega

theorem readEntries_length (s : List Nat) (es : Contents) (r : List Nat)
    (h : readEntries s = .ok es r) : r.length < s.length :=
  readEntriesF_length s.length s es r h

end MTools

namespace MTools

/-- Big-endian value of a byte list. -/
def beNat (bytes : List Nat) : Nat := bytes.foldl (fun a b => a * 256 + b) 0

/-- Two's-complement signed reading of a `w`-bit big-endian value. -/
def toSigned (v w : Nat) : Int :=
  if v < 2 ^ (w - 1) then (v : Int) else (v : Int) - 2 ^ w

/-- Outcome of reading one directory block. -/
inductive DOut where
  | exhausted : DOut
  | hang : DOut
  | unpack : DOut
  | valueError : DOut
  | ok : Dir → Int × Int → List Nat → DOut
deriving DecidableEq, Repr

/-- One iteration of `load_dirs`: read the 16-byte header (fewer than 16
bytes back ends the stream normally, the `break`), then the
null-terminated path, the timestamp (`>qli`: signed 64-bit seconds,
signed 32-bit nanos, 4 bytes padding), then the entries.  Of the
timestamp stage only the `replace` microsecond check is modelled here:
the platform- and timezone-dependent seconds range of `fromtimestamp`
(see `mkMtime`) would only add another error outcome of the same kind,
never normal exhaustion, so none of the properties proved about
`parseDir`/`loadDirs` below depends on it. -/
def parseDir (s : List Nat) : DOut :=
  if s.length < 16 then .exhausted
  else
    match readC (s.drop 16) with
    | none => .hang
    | some (path, r1) =>
      match replaceMicro (toSigned (beNat (((s.take 16).drop 8).take 4)) 32) with
      | .error _ => .valueError
      | .ok _ =>
        match readEntries r1 with
        | .hang => .hang
        | .unpack => .unpack
        | .ok es r2 =>
          .ok ⟨path, es⟩ (toSigned (beNat ((s.take 16).take 8)) 64,
            toSigned (beNat (((s.take 16).drop 8).take 4)) 32) r2

theorem parseDir_ok_length (s : List Nat) (d : Dir) (dt : Int × Int) (r : List Nat)
    (h : parseDir s = .ok d dt r) : r.length < s.length := by
  unfold parseDir at h
  split at h
  · simp at h
  · next hge =>
    split at h
    · simp at h
    · next path r1 hrc =>
      split at h
      · simp at h
      · split at h
        · simp at h
        · simp at h
        · next es r2 hre =>
          cases h
          have h1 := readEntries_length r1 es r hre
          have h2 := readC_length (s.drop 16) path r1 hrc
          simp only [List.length_drop] at h2
          omega

/-- How the directory stream of `load_dirs` ends on a finite input. -/
inductive StreamEnd where
  | exhausted : StreamEnd
  | hang : StreamEnd
  | unpack : StreamEnd
  | valueError : StreamEnd
deriving DecidableEq, Repr

/-- The `load_dirs` loop without an input limit: collect directories
until a terminal outcome, returning the directories, the way the stream
ended, and the bytes remaining at that point. -/
def loadDirs (s : List Nat) : List (Dir × (Int × Int)) × StreamEnd × List Nat :=
  match hp : parseDir s with
  | .exhausted => ([], .exhausted, s)
  | .hang => ([], .hang, s)
  | .unpack => ([], .unpack, s)
  | .valueError => ([], .valueError, s)
  | .ok d dt r =>
    let q := loadDirs r
    ((d, dt) :: q.1, q.2)
termination_by s.length
decreasing_by
  exact parseDir_ok_length _ _ _ _ hp

theorem loadDirs_unfold (s : List Nat) :
    loadDirs s = match parseDir s with
      | .exhausted => ([], .exhausted, s)
      | .hang => ([], .hang, s)
      | .unpack => ([], .unpack, s)
      | .valueError => ([], .valueError, s)
      | .ok d dt r => ((d, dt) :: (loadDirs r).1, (loadDirs r).2) := by
  rw [loadDirs]
  cases hps : parseDir s <;> rfl

theorem parseDir_exhausted_iff (s : List Nat) :
    parseDir s = DOut.exhausted ↔ s.length < 16 := by
  constructor
  · intro h
    by_contra hge
    unfold parseDir at h
    rw [if_neg hge] at h
    split at h
    · simp at h
    · split at h
      · simp at h
      · split at h <;> simp at h
  · intro h
    unfold parseDir
    rw [if_pos h]

theorem loadDirs_exhausted_rest (s : List Nat)
    (h : (loadDirs s).2.1 = StreamEnd.exhausted) : (loadDirs s).2.2.length < 16 := by
  cases hps : parseDir s with
  | exhausted =>
    rw [loadDirs_unfold, hps]
    exact (parseDir_exhausted_iff s).mp hps
  | hang =>
    rw [loadDirs_unfold, hps] at h
    exact StreamEnd.noConfusion h
  | unpack =>
    rw [loadDirs_unfold, hps] at h
    exact StreamEnd.noConfusion h
  | valueError =>
    rw [loadDirs_unfold, hps] at h
    exact StreamEnd.noConfusion h
  | ok d dt r =>
    rw [loadDirs_unfold, hps] at h ⊢
    exact loadDirs_exhausted_rest r h
termination_by s.length
decreasing_by
  exact parseDir_ok_length _ _ _ _ hps

theorem readEntries_nil : readEntries [] = EOut.unpack := rfl

theorem readEntries_name_hang : readEntries [1, 97] = EOut.hang := rfl

/-- Claim C4 amended: the directory stream ends normally (Exhausted)
exactly when fewer than 16 bytes remain at a directory-header boundary —
including one to fifteen leftover bytes; an input ending inside the path
or inside an entry name leaves `read_cstring` looping forever (`hang`),
and a missing entry-tag byte raises a struct unpack error.  The code
raises `TruncatedInput` nowhere: no such outcome exists. -/
theorem stream_end_iff_short_header (s : List Nat) :
    (parseDir s = DOut.exhausted ↔ s.length < 16)
    ∧ ((loadDirs s).2.1 = StreamEnd.exhausted → (loadDirs s).2.2.length < 16)
    ∧ parseDir (List.replicate 16 0 ++ [97]) = DOut.hang
    ∧ readEntries [] = EOut.unpack
    ∧ readEntries [1, 97] = EOut.hang :=
  ⟨parseDir_exhausted_iff s, loadDirs_exhausted_rest s,
    rfl, readEntries_nil, readEntries_name_hang⟩

/-- Claim C4 counterexample: an input that ends one byte into the 16-byte
directory header terminates the stream normally — it does not fail with
`TruncatedInput` (nor with anything else). -/
theorem one_byte_header_ends_normally_cex :
    loadDirs [0] = ([], StreamEnd.exhausted, [0]) := by
  rw [loadDirs_unfold]
  rfl

/-- Witness for the amended C4 at a concrete input: fifteen leftover
bytes end the stream normally. -/
theorem stream_end_iff_short_header_witness :
    parseDir (List.replicate 15 0) = DOut.exhausted :=
  (stream_end_iff_short_header (List.replicate 15 0)).1.mpr (by decide)

end MTools

namespace MTools

/-! ## Pattern compiler (`cli.regex_compile`) and `DirBlock.match_path`

With `use_regexps` false each pattern is translated by `fnmatch.translate`
(`*` to `.*`, `?` to `.`, bracket classes preserved, other characters
escaped) — and, crucially, the translated regex ends in `\Z`, so the
compiled matcher accepts a byte string only when the whole string
matches.  `gmatch` below is the matching relation of that translated
regex (the trailing `\Z` is the `[] , []` base case); `clsMem` interprets
a preserved bracket class (ranges with `-`, leading `!` negates; the
backslash doubling performed by `translate` makes every backslash a
literal class member, which positional parsing of the original text
reproduces).  An invalid range such as `[z-a]`, which `re.compile` would
reject as a pattern-syntax error, is modelled as an empty range. -/

/-- A token of the translated regex. -/
inductive Tok where
  | star : Tok
  | q : Tok
  | lit : Nat → Tok
  | cls : List Nat → Tok
deriving DecidableEq, Repr

/-- Index of the first `]`. -/
def findClose : List Nat → Option Nat
  | [] => none
  | c :: r => if c = 93 then some 0 else (findClose r).map (· + 1)

/-- The bracket scan of `fnmatch.translate`, applied to the text after
`[`: skip a leading `!`, then a leading `]`, then find the closing `]`;
returns the class text and how many characters were consumed. -/
def clsSplit (s : List Nat) : Option (List Nat × Nat) :=
  let k1 : Nat := match s with | 33 :: _ => 1 | _ => 0
  let k2 : Nat := match s.drop k1 with | 93 :: _ => 1 | _ => 0
  match findClose (s.drop (k1 + k2)) with
  | none => none
  | some j => some (s.take (k1 + k2 + j), k1 + k2 + j + 1)

/-- `fnmatch.translate` with an explicit character budget; every step
consumes at least one character, so a budget of the pattern length never
runs out. -/
def translateF : Nat → List Nat → List Tok
  | 0, _ => []
  | f + 1, p =>
    match p with
    | [] => []
    | c :: r =>
      if c = 42 then .star :: translateF f r
      else if c = 63 then .q :: translateF f r
      else if c = 91 then
        match clsSplit r with
        | none => .lit 91 :: translateF f r
        | some (stuff, m) => .cls stuff :: translateF f (r.drop m)
      else .lit c :: translateF f r

/-- `fnmatch.translate` as a token list (the trailing `\Z` is implicit in
`gmatch`'s semantics). -/
def translate (p : List Nat) : List Tok := translateF p.length p

/-- Membership in the positional items of a character class: `a-b` is a
range, everything else is literal. -/
def clsItems : List Nat → Nat → Bool
  | a :: 45 :: b :: rest, c => (decide (a ≤ c) && decide (c ≤ b)) || clsItems rest c
  | a :: rest, c => decide (c = a) || clsItems rest c
  | [], _ => false

/-- Membership in a bracket class: a leading `!` negates. -/
def clsMem (stuff : List Nat) (c : Nat) : Bool :=
  match stuff with
  | 33 :: items => ! clsItems items c
  | _ => clsItems stuff c

/-- Full-string matching with an explicit budget; every recursion shrinks
the token list or the string, so a budget of the sum of their lengths
never runs out. -/
def gmatchF : Nat → List Tok → List Nat → Bool
  | 0, [], [] => true
  | 0, _, _ => false
  | _ + 1, [], [] => true
  | _ + 1, [], _ :: _ => false
  | f + 1, .star :: ts, s =>
    gmatchF f ts s || (match s with | [] => false | _ :: s2 => gmatchF f (.star :: ts) s2)
  | f + 1, .q :: ts, s => match s with | [] => false | _ :: s2 => gmatchF f ts s2
  | f + 1, .lit a :: ts, s =>
    match s with | [] => false | c :: s2 => decide (c = a) && gmatchF f ts s2
  | f + 1, .cls stuff :: ts, s =>
    match s with | [] => false | c :: s2 => clsMem stuff c && gmatchF f ts s2

/-- Full-string matching of a translated pattern (regex `match` with the
trailing `\Z` appended by `fnmatch.translate`). -/
def gmatch (ts : List Tok) (s : List Nat) : Bool :=
  gmatchF (ts.length + s.length) ts s

/-- `DirBlock.match_path` over glob-compiled selectors: the loop
`for s in selectors: if s.match(self.bname): return True`. -/
def matchPathGlob (pats : List (List Nat)) (s : List Nat) : Bool :=
  match pats with
  | [] => false
  | p :: rest => if gmatch (translate p) s then true else matchPathGlob rest s

/-- Claim C7 counterexample: for the glob `a`, the proper prefix `a` of
the byte string `ab` is matched by the translated pattern, yet `ab` is
not accepted — glob matching is not prefix (`match`) semantics. -/
theorem glob_prefix_not_accepted_cex :
    matchPathGlob [[97]] [97, 98] = false ∧ gmatch (translate [97]) [97] = true := by
  decide

/-- Claim C7 amended: with `use_regex` false, `fnmatch.translate` appends
`\Z`, so matching is anchored at both ends: a byte string is accepted iff
some translated pattern matches it in full; acceptance of a proper prefix
does not suffice. -/
theorem glob_match_is_full_match (pats : List (List Nat)) (s : List Nat) :
    matchPathGlob pats s = true ↔ ∃ p ∈ pats, gmatch (translate p) s = true := by
  induction pats with
  | nil => simp [matchPathGlob]
  | cons p rest ih =>
    simp only [matchPathGlob]
    by_cases hg : gmatch (translate p) s = true
    · simp [hg]
    · rw [if_neg hg, ih]
      constructor
      · rintro ⟨x, hx, hxg⟩
        exact ⟨x, List.mem_cons_of_mem _ hx, hxg⟩
      · rintro ⟨x, hx, hxg⟩
        rcases List.mem_cons.mp hx with rfl | hx2
        · exact absurd hxg hg
        · exact ⟨x, hx2, hxg⟩

/-- Witness for the amended C7: the glob `*` accepts `hi` in full. -/
theorem glob_match_is_full_match_witness :
    matchPathGlob [[42]] [104, 105] = true :=
  (glob_match_is_full_match [[42]] [104, 105]).mpr ⟨[42], by decide, by decide⟩

end MTools

namespace MTools

/-! ## The subtree assembler `tree.Tree`

`Tree.load` keeps a cursor stack of segment names and a tree of
`[name, children]` lists; `push` descends `depth` levels along the last
child at each level and appends a new node there, so the cursor is always
the chain of last children.  `pop` only shortens the stack.  The tree is
a forest (`RForest`) of rose nodes (`RTree`). -/

mutual
inductive RTree where
  | node : List Nat → RForest → RTree
inductive RForest where
  | nil : RForest
  | cons : RTree → RForest → RForest
end

/-- Last tree of a forest (`tip[-1]`). -/
def lastF : RForest → Option RTree
  | .nil => none
  | .cons t rest =>
    match rest with
    | .nil => some t
    | .cons _ _ => lastF rest

/-- A forest without its last tree. -/
def dropLastF : RForest → RForest
  | .nil => .nil
  | .cons t rest =>
    match rest with
    | .nil => .nil
    | .cons _ _ => .cons t (dropLastF rest)

/-- Append a tree at the end of a forest (`tip.append`). -/
def appendF : RForest → RTree → RForest
  | .nil, t => .cons t .nil
  | .cons x rest, t => .cons x (appendF rest t)

mutual
/-- Occurrences of a segment name in a tree. -/
def countT (seg : List Nat) : RTree → Nat
  | .node n cs => (if n = seg then 1 else 0) + countF seg cs
/-- Occurrences of a segment name in a forest. -/
def countF (seg : List Nat) : RForest → Nat
  | .nil => 0
  | .cons t rest => countT seg t + countF seg rest
end

/-- The cursor stack is realizable as the chain of last children. -/
def chainOK : RForest → List (List Nat) → Bool
  | _, [] => true
  | f, sg :: rest =>
    match lastF f with
    | none => false
    | some (.node nm cs) => decide (nm = sg) && chainOK cs rest

/-- `Tree.push`'s descent: walk `d` levels along the last children and
append the new leaf; `none` models the `IndexError` of `tip[-1]` on an
empty forest (unreachable from `Tree.load`). -/
def tipAppend : RForest → Nat → List Nat → Option RForest
  | f, 0, name => some (appendF f (.node name .nil))
  | f, d + 1, name =>
    match lastF f with
    | none => none
    | some (.node nm cs) =>
      (tipAppend cs d name).map (fun cs2 => appendF (dropLastF f) (.node nm cs2))

/-- The state of a `Tree`: the forest and the cursor stack. -/
structure TState where
  tree : RForest
  stack : List (List Nat)

/-- `Tree.push`. -/
def pushT (st : TState) (name : List Nat) : Option TState :=
  (tipAppend st.tree st.stack.length name).map (fun t2 => ⟨t2, st.stack ++ [name]⟩)

/-- `Tree.pushx`. -/
def pushSeq (st : TState) (ns : List (List Nat)) : Option TState :=
  match ns with
  | [] => some st
  | n :: rest =>
    match pushT st n with
    | none => none
    | some st2 => pushSeq st2 rest

/-- `Tree.load`: `None` (the inner value) when the path does not start
with the root; otherwise pop to the common stem, push the new segments
and return the relative path with a trailing separator. -/
def load (root : List Nat) (st : TState) (p : List Nat) :
    Option (Option (List Nat) × TState) :=
  if leadsB root p = false then some (none, st)
  else
    let current := p.drop root.length
    let nodes := splitB current
    let k := commonLvl st.stack nodes
    match pushSeq ⟨st.tree, st.stack.take k⟩ (nodes.drop k) with
    | none => none
    | some st2 => some (some (current ++ [47]), st2)

/-- A sequence of `Tree.load` calls, ignoring the returned values. -/
def loadSeq (root : List Nat) (st : TState) (ps : List (List Nat)) : Option TState :=
  match ps with
  | [] => some st
  | p :: rest =>
    match load root st p with
    | none => none
    | some (_, st2) => loadSeq root st2 rest

theorem lastF_appendF : ∀ (f : RForest) (t : RTree), lastF (appendF f t) = some t
  | .nil, _ => rfl
  | .cons _ .nil, _ => rfl
  | .cons _ (.cons y r2), t => lastF_appendF (.cons y r2) t

theorem dropLastF_appendF : ∀ (f : RForest) (t : RTree), dropLastF (appendF f t) = f
  | .nil, _ => rfl
  | .cons _ .nil, _ => rfl
  | .cons x (.cons y r2), t => by
    have ih := dropLastF_appendF (.cons y r2) t
    show RForest.cons x (dropLastF (appendF (.cons y r2) t)) = _
    rw [ih]

theorem tipAppend_chain (s : List (List Nat)) :
    ∀ (f : RForest) (name : List Nat), chainOK f s = true →
      ∃ f2, tipAppend f s.length name = some f2 ∧ chainOK f2 (s ++ [name]) = true := by
  induction s with
  | nil =>
    intro f name _
    refine ⟨appendF f (.node name .nil), rfl, ?_⟩
    simp [chainOK, lastF_appendF]
  | cons sg rest ih =>
    intro f name h
    simp only [chainOK] at h
    cases hl : lastF f with
    | none => rw [hl] at h; simp at h
    | some t =>
      cases t with
      | node nm cs =>
        rw [hl] at h
        simp only [Bool.and_eq_true, decide_eq_true_eq] at h
        obtain ⟨f2, htip, hch⟩ := ih cs name h.2
        refine ⟨appendF (dropLastF f) (.node nm f2), ?_, ?_⟩
        · simp only [List.length_cons, tipAppend, hl, htip, Option.map_some']
        · simp only [List.cons_append, chainOK, lastF_appendF]
          simp [h.1, hch]

theorem chainOK_take (s : List (List Nat)) :
    ∀ (f : RForest) (k : Nat), chainOK f s = true → chainOK f (s.take k) = true := by
  induction s with
  | nil => intro f k _; simp [chainOK]
  | cons sg rest ih =>
    intro f k h
    cases k with
    | zero => rfl
    | succ k2 =>
      simp only [chainOK] at h ⊢
      cases hl : lastF f with
      | none => rw [hl] at h; simp at h
      | some t =>
        rw [hl] at h
        cases t with
        | node nm cs =>
          have h2 : (decide (nm = sg) && chainOK cs rest) = true := h
          show (decide (nm = sg) && chainOK cs (rest.take k2)) = true
          simp only [Bool.and_eq_true, decide_eq_true_eq] at h2 ⊢
          exact ⟨h2.1, ih cs k2 h2.2⟩

theorem countT_le_countF :
    ∀ (f : RForest) (t : RTree), lastF f = some t →
      ∀ seg : List Nat, countT seg t ≤ countF seg f
  | .nil, t, h, seg => by simp [lastF] at h
  | .cons x .nil, t, h, seg => by
    have h2 : some x = some t := h
    cases h2
    show countT seg x ≤ countT seg x + 0
    omega
  | .cons x (.cons y r2), t, h, seg => by
    have ih := countT_le_countF (.cons y r2) t h seg
    show countT seg t ≤ countT seg x + countF seg (.cons y r2)
    omega

theorem chainOK_count (s : List (List Nat)) :
    ∀ (f : RForest), chainOK f s = true → ∀ seg ∈ s, 1 ≤ countF seg f := by
  induction s with
  | nil => intro f _ seg hseg; simp at hseg
  | cons sg rest ih =>
    intro f h seg hseg
    simp only [chainOK] at h
    cases hl : lastF f with
    | none => rw [hl] at h; simp at h
    | some t =>
      cases t with
      | node nm cs =>
        rw [hl] at h
        simp only [Bool.and_eq_true, decide_eq_true_eq] at h
        have hle := countT_le_countF f (.node nm cs) hl seg
        rcases List.mem_cons.mp hseg with rfl | hseg2
        · have : 1 ≤ countT seg (RTree.node nm cs) := by
            simp [countT, h.1]
          omega
        · have := ih cs h.2 seg hseg2
          simp only [countT] at hle
          omega

end MTools

namespace MTools

theorem pushSeq_chain (ns : List (List Nat)) :
    ∀ st : TState, chainOK st.tree st.stack = true →
      ∃ st2, pushSeq st ns = some st2 ∧ chainOK st2.tree st2.stack = true
        ∧ st2.stack = st.stack ++ ns := by
  induction ns with
  | nil => intro st h; exact ⟨st, rfl, h, by simp⟩
  | cons n rest ih =>
    intro st h
    obtain ⟨f2, htip, hch⟩ := tipAppend_chain st.stack st.tree n h
    have hpush : pushT st n = some ⟨f2, st.stack ++ [n]⟩ := by
      simp only [pushT, htip, Option.map_some']
    obtain ⟨st2, hseq, hch2, hstk⟩ := ih ⟨f2, st.stack ++ [n]⟩ hch
    refine ⟨st2, ?_, hch2, ?_⟩
    · simp only [pushSeq, hpush, hseq]
    · rw [hstk]; simp

theorem load_chain (root : List Nat) (st : TState) (p : List Nat)
    (h : chainOK st.tree st.stack = true) :
    ∃ res st2, load root st p = some (res, st2) ∧ chainOK st2.tree st2.stack = true
      ∧ (res = none → st2 = st ∧ leadsB root p = false)
      ∧ (∀ rel, res = some rel →
          rel = p.drop root.length ++ [47]
            ∧ st2.stack = splitB (p.drop root.length)) := by
  by_cases hpre : leadsB root p = false
  · refine ⟨none, st, ?_, h, fun _ => ⟨rfl, hpre⟩, fun rel hrel => Option.noConfusion hrel⟩
    simp only [load, hpre, ite_true]
  · have hleads : leadsB root p = true := by
      cases hln : leadsB root p
      · exact absurd hln hpre
      · rfl
    have hk := chainOK_take st.stack st.tree (commonLvl st.stack (splitB (p.drop root.length))) h
    obtain ⟨st2, hseq, hch2, hstk⟩ :=
      pushSeq_chain ((splitB (p.drop root.length)).drop
          (commonLvl st.stack (splitB (p.drop root.length))))
        ⟨st.tree, st.stack.take (commonLvl st.stack (splitB (p.drop root.length)))⟩ hk
    refine ⟨some (p.drop root.length ++ [47]), st2, ?_, hch2, ?_, ?_⟩
    · simp only [load, hleads, Bool.true_eq_false, ite_false, hseq]
    · intro hr
      exact Option.noConfusion hr
    · intro rel hrel
      cases hrel
      refine ⟨rfl, ?_⟩
      rw [hstk]
      have hcl := commonLvl_take st.stack (splitB (p.drop root.length))
      calc st.stack.take (commonLvl st.stack (splitB (p.drop root.length)))
            ++ ((splitB (p.drop root.length)).drop
                (commonLvl st.stack (splitB (p.drop root.length))))
          = (splitB (p.drop root.length)).take
                (commonLvl st.stack (splitB (p.drop root.length)))
            ++ ((splitB (p.drop root.length)).drop
                (commonLvl st.stack (splitB (p.drop root.length)))) := by rw [hcl]
        _ = splitB (p.drop root.length) := List.take_append_drop _ _

theorem loadSeq_chain (ps : List (List Nat)) :
    ∀ (root : List Nat) (st : TState), chainOK st.tree st.stack = true →
      ∀ st2, loadSeq root st ps = some st2 → chainOK st2.tree st2.stack = true := by
  induction ps with
  | nil =>
    intro root st h st2 hseq
    simp only [loadSeq] at hseq
    cases hseq
    exact h
  | cons p rest ih =>
    intro root st h st2 hseq
    obtain ⟨res, st1, hload, hch1, _, _⟩ := load_chain root st p h
    simp only [loadSeq, hload] at hseq
    exact ih root st1 hch1 st2 hseq

end MTools

namespace MTools

/-- Two loads under root `/r/` followed by a third; used to exhibit
duplicate insertion of a segment name. -/
def c8Loaded : Option (Option (List Nat) × TState) :=
  match loadSeq [47, 114, 47] ⟨.nil, []⟩ [[47, 114, 47, 97], [47, 114, 47, 98]] with
  | some st => load [47, 114, 47] st [47, 114, 47, 97]
  | none => none

def c8Rel : Option (List Nat) :=
  match c8Loaded with
  | some (r, _) => r
  | none => none

def c8Count : Nat :=
  match c8Loaded with
  | some (_, st2) => countF [97] st2.tree
  | none => 0

/-- Claim C8, counterexample: after `Tree(b"/r/")` loads `/r/a` then `/r/b`,
a further `load(b"/r/a")` returns the non-None value `b"a/"`, yet the tree
then contains the segment `a` twice — `push` appends a fresh node without
checking for an existing sibling of the same name, so "exactly once" fails. -/
theorem tree_load_duplicate_segment_cex : c8Rel = some [97, 47] ∧ c8Count = 2 := by
  decide

/-- Claim C8, amended: after any successful sequence of `Tree.load` calls,
`load(p)` returns None (leaving the state unchanged) when `p` does not start
with the root, and otherwise returns the root-relative path of `p` with a
trailing separator, after which every segment of `p` below the root occurs
at least once (not necessarily exactly once) in the in-memory tree. -/
theorem tree_load_segments_present (root : List Nat) (ps : List (List Nat))
    (st : TState) (p : List Nat)
    (hseq : loadSeq root ⟨.nil, []⟩ ps = some st) :
    (leadsB root p = false → load root st p = some (none, st))
    ∧ (leadsB root p = true →
        ∃ st2, load root st p = some (some (p.drop root.length ++ [47]), st2)
          ∧ ∀ seg ∈ splitB (p.drop root.length), 1 ≤ countF seg st2.tree) := by
  have hch := loadSeq_chain ps root ⟨.nil, []⟩ rfl st hseq
  constructor
  · intro hpre
    simp only [load, hpre, ite_true]
  · intro hpre
    obtain ⟨res, st2, hload, hch2, hnone, hsome⟩ := load_chain root st p hch
    cases res with
    | none =>
      have := (hnone rfl).2
      rw [hpre] at this
      exact absurd this (by simp)
    | some rel =>
      obtain ⟨hrel, hstk⟩ := hsome rel rfl
      refine ⟨st2, ?_, ?_⟩
      · rw [← hrel]; exact hload
      · intro seg hseg
        have := chainOK_count st2.stack st2.tree hch2 seg
        rw [hstk] at this
        exact this hseg

/-- Claim C8 witness: with root `/r/`, after loading `/r/a`, loading
`/r/a/b` returns `a/b/` and both segments occur in the tree. -/
theorem tree_load_segments_present_witness :
    ∃ st2, load [47, 114, 47]
        ⟨RForest.cons (RTree.node [97] RForest.nil) RForest.nil, [[97]]⟩
        [47, 114, 47, 97, 47, 98]
        = some (some (List.drop 3 [47, 114, 47, 97, 47, 98] ++ [47]), st2)
      ∧ ∀ seg ∈ splitB (List.drop 3 [47, 114, 47, 97, 47, 98]),
          1 ≤ countF seg st2.tree :=
  (tree_load_segments_present [47, 114, 47] [[47, 114, 47, 97]]
      ⟨RForest.cons (RTree.node [97] RForest.nil) RForest.nil, [[97]]⟩
      [47, 114, 47, 97, 47, 98] (by rfl)).2 (by decide)

end MTools

namespace MTools

/-! ## `binutils.safe_decode`

`data.decode()` is strict UTF-8 (CPython default encoding); on
`UnicodeDecodeError` the function logs and retries with
`errors='backslashreplace'`, which renders every byte of an invalid
sequence as `\xHH` and never fails.  Codepoints model the decoded text. -/

/-- Decode one UTF-8 scalar from the front: `some (codepoint, rest)`, or
`none` on an invalid sequence.  Ranges follow CPython's strict decoder
(no overlongs, no surrogates, max U+10FFFF). -/
def utf8DecodeOne : List Nat → Option (Nat × List Nat)
  | [] => none
  | b0 :: rest =>
    if b0 < 0x80 then some (b0, rest)
    else if b0 < 0xC2 then none
    else if b0 < 0xE0 then
      match rest with
      | b1 :: r2 =>
        if 0x80 ≤ b1 ∧ b1 ≤ 0xBF then
          some ((b0 - 0xC0) * 0x40 + (b1 - 0x80), r2)
        else none
      | [] => none
    else if b0 < 0xF0 then
      match rest with
      | b1 :: b2 :: r2 =>
        if (if b0 = 0xE0 then 0xA0 else 0x80) ≤ b1
            ∧ b1 ≤ (if b0 = 0xED then 0x9F else 0xBF)
            ∧ 0x80 ≤ b2 ∧ b2 ≤ 0xBF then
          some ((b0 - 0xE0) * 0x1000 + (b1 - 0x80) * 0x40 + (b2 - 0x80), r2)
        else none
      | _ => none
    else if b0 < 0xF5 then
      match rest with
      | b1 :: b2 :: b3 :: r2 =>
        if (if b0 = 0xF0 then 0x90 else 0x80) ≤ b1
            ∧ b1 ≤ (if b0 = 0xF4 then 0x8F else 0xBF)
            ∧ 0x80 ≤ b2 ∧ b2 ≤ 0xBF ∧ 0x80 ≤ b3 ∧ b3 ≤ 0xBF then
          some ((b0 - 0xF0) * 0x40000 + (b1 - 0x80) * 0x1000
            + (b2 - 0x80) * 0x40 + (b3 - 0x80), r2)
        else none
      | _ => none
    else none

/-- Strict decoding with fuel (one unit per scalar; the input length is
always enough since each scalar consumes at least one byte). -/
def strictDecodeF : Nat → List Nat → Option (List Nat)
  | _, [] => some []
  | 0, _ :: _ => none
  | fuel + 1, b0 :: rest =>
    match utf8DecodeOne (b0 :: rest) with
    | none => none
    | some (c, r2) => (strictDecodeF fuel r2).map (fun cs => c :: cs)

/-- `data.decode()`: strict UTF-8, `none` models `UnicodeDecodeError`. -/
def strictDecode (b : List Nat) : Option (List Nat) := strictDecodeF b.length b

/-- `errors='backslashreplace'` with fuel.  CPython escapes every byte of
each reported invalid run as `\xHH` and resumes after the run; escaping
one byte and retrying from the next gives byte-for-byte the same output,
because every non-initial byte of an invalid run is itself invalid as a
sequence start. -/
def backslashDecodeF : Nat → List Nat → List Nat
  | _, [] => []
  | 0, _ :: _ => []
  | fuel + 1, b0 :: rest =>
    match utf8DecodeOne (b0 :: rest) with
    | some (c, r2) => c :: backslashDecodeF fuel r2
    | none => 92 :: 120 :: hexDigit (b0 / 16) :: hexDigit (b0 % 16)
        :: backslashDecodeF fuel rest

/-- `data.decode(errors='backslashreplace')`: never fails. -/
def backslashDecode (b : List Nat) : List Nat := backslashDecodeF b.length b

/-- The `try` body of `safe_decode`. -/
def pyDecodeStrict (b : List Nat) : Except (List Nat) (List Nat) :=
  match strictDecode b with
  | some cs => .ok cs
  | none => .error b

/-- `safe_decode(data, prefix)`: try strict, on `UnicodeDecodeError` log
(`prefix` is only used in the log message) and fall back. -/
def safeDecode (b _p : List Nat) : Except (List Nat) (List Nat) :=
  match pyDecodeStrict b with
  | .ok cs => .ok cs
  | .error _ => .ok (backslashDecode b)

theorem strictDecodeF_ascii (b : List Nat) (hb : ∀ x ∈ b, x < 0x80) :
    strictDecodeF b.length b = some b := by
  induction b with
  | nil => rfl
  | cons x r ih =>
    have hx : x < 0x80 := hb x (by simp)
    have hr : ∀ y ∈ r, y < 0x80 := fun y hy => hb y (by simp [hy])
    simp only [List.length_cons, strictDecodeF, utf8DecodeOne, if_pos hx, ih hr,
      Option.map_some']

end MTools

namespace MTools

/-- Claim C9: `safe_decode(b, prefix)` never raises, for any `b` and any
`prefix`; when `b` decodes as strict UTF-8 the result is that plain
decoding (in particular all-ASCII input comes back unchanged), and the
backslash-escaping fallback is taken exactly on invalid UTF-8. -/
theorem safe_decode_total_and_faithful (b p : List Nat) :
    (∃ cs, safeDecode b p = .ok cs)
    ∧ (∀ cs, pyDecodeStrict b = .ok cs → safeDecode b p = .ok cs)
    ∧ (pyDecodeStrict b = .error b → safeDecode b p = .ok (backslashDecode b))
    ∧ ((∀ x ∈ b, x < 0x80) → safeDecode b p = .ok b) := by
  refine ⟨?_, ?_, ?_, ?_⟩
  · cases hs : pyDecodeStrict b with
    | ok cs => exact ⟨cs, by simp only [safeDecode, hs]⟩
    | error e => exact ⟨backslashDecode b, by simp only [safeDecode, hs]⟩
  · intro cs hcs
    simp only [safeDecode, hcs]
  · intro herr
    simp only [safeDecode, herr]
  · intro hb
    have := strictDecodeF_ascii b hb
    simp only [safeDecode, pyDecodeStrict, strictDecode, this]

/-- Claim C9 witness: `b'messy\xe9efilename'`-style invalid input falls
back to escaping without raising, and plain ASCII decodes to itself. -/
theorem safe_decode_total_and_faithful_witness :
    safeDecode [109, 0xE9, 101] (bs "some/regular/path/")
      = .ok (backslashDecode [109, 0xE9, 101])
    ∧ safeDecode [97, 98, 99] [] = .ok [97, 98, 99] :=
  ⟨(safe_decode_total_and_faithful [109, 0xE9, 101] (bs "some/regular/path/")).2.2.1
      (by rfl),
   (safe_decode_total_and_faithful [97, 98, 99] []).2.2.2 (by decide)⟩

end MTools
